import Mathlib

/-!
# HSM: a hierarchical state machine dispatch engine (`HSM.c`, `HSM.h`)

Shallow embedding of the engine and a verification of its dispatch and
transition behaviour.

Modelling conventions.

* A `const HSM_State *` is an address, a natural number (`StatePtr`); the null
  pointer is `none`.  The read-only state tree is the memory `Program.state`.
* A function pointer is a code address (`FnPtr`); `Program.fn` is the code found
  at it.  Application state that handlers may read and write is the type `W`.
* A handler receives the machine and the event and, as `HSM.h` prescribes, acts
  on the machine only through `HSM_Transition` (it never calls `HSM_Dispatch`).
  Its run is therefore summarised by the value it returns, the targets of the
  `HSM_Transition` calls it makes (in order), and the new application state.
* Loops over `superState` links need not terminate on a cyclic tree, so every
  loop carries fuel, and a run ends in `Except.error Fault.outOfFuel` when it is
  exhausted.  An access outside `stateList` is `Fault.outOfBounds` and a
  dereference of a null pointer is `Fault.nullDeref`.
* Every handler invocation and every assignment to `pState__` is appended to a
  ghost trace, and the target of every `HSM_Transition` call to a ghost log of
  requests; neither influences the run.
-/

namespace HSM

/-- Address of an `HSM_State` object. -/
abbrev StatePtr := Nat

/-- Address of a handler function. -/
abbrev FnPtr := Nat

/-- `typedef short HSM_Signal;` (only compared, never computed with). -/
abbrev HSM_Signal := Int

/-- `#define HSM_MAX_HIERARCHY_DEPTH 5` (HSM.h:18-20). -/
def HSM_MAX_HIERARCHY_DEPTH : Nat := 5

/-- `HSM_return_t` (HSM.h:27-32). -/
inductive HSM_return_t where
  | HSM_CONTINUE
  | HSM_SUPPRESS_SUPERSTATES
  | HSM_SUPPRESS_IMMEDIATE_SUPERSTATE
  deriving DecidableEq, Repr

export HSM_return_t (HSM_CONTINUE HSM_SUPPRESS_SUPERSTATES HSM_SUPPRESS_IMMEDIATE_SUPERSTATE)

/-- Reserved signal `HSM_SIG_INIT = 1` (HSM.h:40-45). -/
def HSM_SIG_INIT : HSM_Signal := 1

/-- Reserved signal `HSM_SIG_ENTRY` (HSM.h:40-45). -/
def HSM_SIG_ENTRY : HSM_Signal := 2

/-- Reserved signal `HSM_SIG_EXIT` (HSM.h:40-45). -/
def HSM_SIG_EXIT : HSM_Signal := 3

/-- First signal of the application, `HSM_SIG_USER_START` (HSM.h:40-45). -/
def HSM_SIG_USER_START : HSM_Signal := 4

/-- `struct HSM_Event` (HSM.h:48-51). -/
structure HSM_Event where
  sig : HSM_Signal
  zone_number : Nat
  deriving DecidableEq, Repr

/-- `struct HSM_State` (HSM.h:53-58). -/
structure HSM_State where
  handlerFn : FnPtr
  superState : Option StatePtr
  identifier : Int
  deriving DecidableEq, Repr

/-- `struct HSM_Fsm` (HSM.h:60-66). -/
structure HSM_Fsm where
  pState__ : Option StatePtr
  pTransitionTarget : Option StatePtr
  pLatestEvent : Option HSM_Event
  fnGenericEvtHandler : Option FnPtr
  deriving DecidableEq, Repr

/-- What one run of a handler does: the value it returns, the targets it passes
to `HSM_Transition` (in call order) and the application state it leaves. -/
structure HandlerResult (W : Type) where
  retVal : HSM_return_t
  requests : List (Option StatePtr)
  world : W

/-- `HSM_State_fn` (HSM.h:37): a handler sees the application state, the machine
and the event. -/
abbrev HSM_State_fn (W : Type) := W → HSM_Fsm → HSM_Event → HandlerResult W

/-- The read-only part of an application: the state objects and the handler code. -/
structure Program (W : Type) where
  state : StatePtr → HSM_State
  fn : FnPtr → HSM_State_fn W

/-- Who is called: the generic handler of the machine or the handler of a state. -/
inductive Callee where
  | observer
  | state (s : StatePtr)
  deriving DecidableEq, Repr

/-- Ghost trace: handler invocations (callee, event, the machine as the callee
sees it on entry, the value returned) and assignments to `pState__`. -/
inductive TraceItem where
  | call (callee : Callee) (e : HSM_Event) (me : HSM_Fsm) (ret : HSM_return_t)
  | setState (target : StatePtr)
  deriving DecidableEq, Repr

/-- Ways in which a run has no defined result. -/
inductive Fault where
  | outOfFuel
  | outOfBounds
  | nullDeref
  deriving DecidableEq, Repr

/-- The machine together with everything else a run of the engine touches: the
application state, the `static` array `stateList` of `__Dispatch` (HSM.c:69), the
ghost trace, and a second ghost log, `requested`: the targets of all calls of
`HSM_Transition` so far, in call order, whether recorded or ignored. -/
structure Sys (W : Type) where
  me : HSM_Fsm
  world : W
  stateList : Nat → Option StatePtr
  trace : List TraceItem
  requested : List (Option StatePtr)

/-- `static HSM_Event const initEvt` (HSM.c:8). -/
def initEvt : HSM_Event := { sig := HSM_SIG_INIT, zone_number := 0 }

/-- `static HSM_Event const entryEvt` (HSM.c:9). -/
def entryEvt : HSM_Event := { sig := HSM_SIG_ENTRY, zone_number := 0 }

/-- `static HSM_Event const exitEvt` (HSM.c:10). -/
def exitEvt : HSM_Event := { sig := HSM_SIG_EXIT, zone_number := 0 }

/-- `HSM_FsmCtor` (HSM.c:16-21). -/
def HSM_FsmCtor (initialState : Option StatePtr) (fnGenericEvtHandler : Option FnPtr) :
    HSM_Fsm :=
  { pState__ := initialState
    pTransitionTarget := none
    pLatestEvent := none
    fnGenericEvtHandler := fnGenericEvtHandler }

/-- `HSM_Transition` (HSM.c:52-61): the target is saved unless there is no latest
event or the latest event is an entry or exit event. -/
def HSM_Transition (me : HSM_Fsm) (target : Option StatePtr) : HSM_Fsm :=
  match me.pLatestEvent with
  | none => me
  | some ev =>
    if ev.sig ≠ HSM_SIG_ENTRY ∧ ev.sig ≠ HSM_SIG_EXIT then
      { me with pTransitionTarget := target }
    else me

/-- One invocation `(f)(me, e)` of the handler at address `f`: the handler runs,
its `HSM_Transition` calls are applied to the machine in order, and the call and
the requests are logged. -/
def callHandler {W : Type} (prog : Program W) (callee : Callee) (f : FnPtr)
    (e : HSM_Event) (sys : Sys W) : HSM_return_t × Sys W :=
  let r := prog.fn f sys.world sys.me e
  (r.retVal,
    { me := r.requests.foldl HSM_Transition sys.me
      world := r.world
      stateList := sys.stateList
      trace := sys.trace ++ [TraceItem.call callee e sys.me r.retVal]
      requested := sys.requested ++ r.requests })

/-- Inner loop of `__lowestCommonSuperstate` (HSM.c:33-37): does `p1` occur on the
superstate chain that starts at `p2`? -/
def lcsInner {W : Type} (prog : Program W) (p1 : StatePtr) :
    Nat → Option StatePtr → Except Fault Bool
  | 0, _ => .error Fault.outOfFuel
  | _ + 1, none => .ok false
  | n + 1, some p2 =>
    if p1 = p2 then .ok true else lcsInner prog p1 n (prog.state p2).superState

/-- Outer loop of `__lowestCommonSuperstate` (HSM.c:32-38). -/
def lcsOuter {W : Type} (prog : Program W) (fuel : Nat) (state2 : Option StatePtr) :
    Nat → Option StatePtr → Except Fault (Option StatePtr)
  | 0, _ => .error Fault.outOfFuel
  | _ + 1, none => .ok none
  | n + 1, some p1 =>
    match lcsInner prog p1 fuel state2 with
    | .error f => .error f
    | .ok true => .ok (some p1)
    | .ok false => lcsOuter prog fuel state2 n (prog.state p1).superState

/-- `__lowestCommonSuperstate` (HSM.c:29-40). -/
def __lowestCommonSuperstate {W : Type} (prog : Program W) (fuel : Nat)
    (state1 state2 : Option StatePtr) : Except Fault (Option StatePtr) :=
  lcsOuter prog fuel state2 fuel state1

/-- The `for` loop of `__Dispatch` (HSM.c:81-96), from the loop variable `pState`
and the index `stateListIndex`; it returns the index it leaves.  The index is an
`int8_t` in the source; a store at index `HSM_MAX_HIERARCHY_DEPTH = 5` or beyond
is a fault, so the index never comes near the end of its range. -/
def dispatchLoop {W : Type} (prog : Program W) (e : HSM_Event)
    (superstateToStopBefore : Option StatePtr) (descending : Bool) :
    Nat → Option StatePtr → Nat → Sys W → Except Fault (Sys W × Nat)
  | 0, _, _, _ => .error Fault.outOfFuel
  | _ + 1, none, stateListIndex, sys => .ok (sys, stateListIndex)
  | n + 1, some pState, stateListIndex, sys =>
    if some pState = superstateToStopBefore then .ok (sys, stateListIndex)
    else if descending then
      if stateListIndex < HSM_MAX_HIERARCHY_DEPTH then
        dispatchLoop prog e superstateToStopBefore descending n
          (prog.state pState).superState (stateListIndex + 1)
          { sys with stateList := Function.update sys.stateList stateListIndex (some pState) }
      else .error Fault.outOfBounds
    else
      match callHandler prog (Callee.state pState) (prog.state pState).handlerFn e sys with
      | (HSM_SUPPRESS_SUPERSTATES, sys1) => .ok (sys1, stateListIndex)
      | (HSM_SUPPRESS_IMMEDIATE_SUPERSTATE, sys1) =>
        match (prog.state pState).superState with
        | some q =>
          dispatchLoop prog e superstateToStopBefore descending n
            (prog.state q).superState stateListIndex sys1
        | none =>
          dispatchLoop prog e superstateToStopBefore descending n
            (prog.state pState).superState stateListIndex sys1
      | (HSM_CONTINUE, sys1) =>
        dispatchLoop prog e superstateToStopBefore descending n
          (prog.state pState).superState stateListIndex sys1

/-- The second loop of `__Dispatch` (HSM.c:99-102): with `k` the value of
`stateListIndex` before the decrement, the handlers of `stateList[k-1]`, ...,
`stateList[0]` are invoked and their return values dropped. -/
def enterLoop {W : Type} (prog : Program W) (e : HSM_Event) :
    Nat → Sys W → Except Fault (Sys W)
  | 0, sys => .ok sys
  | k + 1, sys =>
    if k < HSM_MAX_HIERARCHY_DEPTH then
      match sys.stateList k with
      | some p =>
        enterLoop prog e k (callHandler prog (Callee.state p) (prog.state p).handlerFn e sys).2
      | none => .error Fault.nullDeref
    else .error Fault.outOfBounds

/-- The start of `__Dispatch` (HSM.c:74-78): the latest event is recorded and the
generic handler, if there is one, is invoked. -/
def dispatchPrologue {W : Type} (prog : Program W) (sys : Sys W) (e : HSM_Event) : Sys W :=
  let sys1 : Sys W := { sys with me := { sys.me with pLatestEvent := some e } }
  match sys1.me.fnGenericEvtHandler with
  | some f => (callHandler prog Callee.observer f e sys1).2
  | none => sys1

/-- The part of `__Dispatch` before the transition check (HSM.c:70-103): the
prologue, the `for` loop and, in descending mode, the second loop. -/
def dispatchPass {W : Type} (prog : Program W) (fuel : Nat) (sys : Sys W) (e : HSM_Event)
    (superstateToStopBefore : Option StatePtr) (descending : Bool) : Except Fault (Sys W) :=
  let sys2 := dispatchPrologue prog sys e
  match dispatchLoop prog e superstateToStopBefore descending fuel sys2.me.pState__ 0 sys2 with
  | .error f => .error f
  | .ok (sys3, stateListIndex) =>
    if descending then enterLoop prog e stateListIndex sys3 else .ok sys3

/-- Body of `__Transition` (HSM.c:42-50).  `__Transition` and `__Dispatch` call
each other; the argument `dispatch` stands for the two calls of `__Dispatch`
at HSM.c:46 and HSM.c:49. -/
def transitionWith {W : Type} (prog : Program W) (fuel : Nat)
    (dispatch : Sys W → HSM_Event → Option StatePtr → Bool → Except Fault (Sys W))
    (sys : Sys W) (target : StatePtr) : Except Fault (Sys W) :=
  match __lowestCommonSuperstate prog fuel sys.me.pState__ (some target) with
  | .error f => .error f
  | .ok lowestCommonSuperstate =>
    match dispatch sys exitEvt lowestCommonSuperstate false with
    | .error f => .error f
    | .ok sys1 =>
      dispatch
        { sys1 with
          me := { sys1.me with pState__ := some target }
          trace := sys1.trace ++ [TraceItem.setState target] }
        entryEvt lowestCommonSuperstate true

/-- `__Dispatch` (HSM.c:67-113); `depth` bounds the nesting of `__Dispatch` calls
and `fuel` the iterations of each loop. -/
def __Dispatch {W : Type} (prog : Program W) (fuel : Nat) :
    Nat → Sys W → HSM_Event → Option StatePtr → Bool → Except Fault (Sys W)
  | 0, _, _, _, _ => .error Fault.outOfFuel
  | depth + 1, sys, e, superstateToStopBefore, descending =>
    match dispatchPass prog fuel sys e superstateToStopBefore descending with
    | .error f => .error f
    | .ok sys1 =>
      match sys1.me.pTransitionTarget with
      | none => .ok sys1
      | some pTransitionTarget =>
        transitionWith prog fuel (__Dispatch prog fuel depth)
          { sys1 with me := { sys1.me with pTransitionTarget := none } } pTransitionTarget

/-- `__Transition` (HSM.c:42-50), its calls of `__Dispatch` nested at most `depth`
deep. -/
def __Transition {W : Type} (prog : Program W) (fuel depth : Nat) (sys : Sys W)
    (target : StatePtr) : Except Fault (Sys W) :=
  transitionWith prog fuel (__Dispatch prog fuel depth) sys target

/-- `HSM_Dispatch` (HSM.c:63-65). -/
def HSM_Dispatch {W : Type} (prog : Program W) (fuel : Nat) (sys : Sys W) (e : HSM_Event) :
    Except Fault (Sys W) :=
  __Dispatch prog fuel fuel sys e none false

/-- `HSM_FsmInit` (HSM.c:23-26). -/
def HSM_FsmInit {W : Type} (prog : Program W) (fuel : Nat) (sys : Sys W) :
    Except Fault (Sys W) :=
  match sys.me.pState__ with
  | none => .error Fault.nullDeref
  | some p =>
    match __Dispatch prog fuel fuel sys initEvt (prog.state p).superState false with
    | .error f => .error f
    | .ok sys1 => __Dispatch prog fuel fuel sys1 entryEvt none true

/-- `HSM_StateIsActive` (HSM.c:115-124), from the loop variable `pStateSuperstate`. -/
def stateIsActiveLoop {W : Type} (prog : Program W) (pState : Option StatePtr) :
    Nat → Option StatePtr → Except Fault Bool
  | 0, _ => .error Fault.outOfFuel
  | _ + 1, none => .ok false
  | n + 1, some p =>
    if some p = pState then .ok true else stateIsActiveLoop prog pState n (prog.state p).superState

/-- `HSM_StateIsActive` (HSM.c:115-124). -/
def HSM_StateIsActive {W : Type} (prog : Program W) (fuel : Nat) (me : HSM_Fsm)
    (pState : Option StatePtr) : Except Fault Bool :=
  stateIsActiveLoop prog pState fuel me.pState__

/-! ## Vocabulary of the specification -/

/-- The ancestor chain of a state, the state included, from the state up to its
root; `none` when the chain has more than `n` states (or never ends). -/
def superChain {W : Type} (prog : Program W) : Nat → Option StatePtr → Option (List StatePtr)
  | _, none => some []
  | 0, some _ => none
  | n + 1, some p => (superChain prog n (prog.state p).superState).map (fun c => p :: c)

/-- A well-formed tree: the ancestor chain of every state ends at a root and has
at most `HSM_MAX_HIERARCHY_DEPTH` states; in particular there is no cycle. -/
def WellFormed {W : Type} (prog : Program W) : Prop :=
  ∀ s : StatePtr, ∃ c, superChain prog HSM_MAX_HIERARCHY_DEPTH (some s) = some c

/-- The proper ancestors of a state, nearest first (complete on a well-formed tree). -/
def ancestors {W : Type} (prog : Program W) (s : StatePtr) : List StatePtr :=
  (superChain prog HSM_MAX_HIERARCHY_DEPTH (prog.state s).superState).getD []

/-- The part of a chain that lies below the boundary `stop`. -/
def below (stop : Option StatePtr) (c : List StatePtr) : List StatePtr :=
  c.takeWhile (fun s => decide (some s ≠ stop))

/-- `cur` is the start of the chain `c` of superstate links, which ends at a root. -/
def IsChain {W : Type} (prog : Program W) : Option StatePtr → List StatePtr → Prop
  | cur, [] => cur = none
  | cur, p :: c => cur = some p ∧ IsChain prog (prog.state p).superState c

/-- The state whose handler a trace item invokes, if it invokes one. -/
def TraceItem.stateOf : TraceItem → Option StatePtr
  | TraceItem.call (Callee.state s) _ _ _ => some s
  | _ => none

/-- The state handler invocations of a trace, each with the value returned. -/
def TraceItem.stepOf : TraceItem → Option (StatePtr × HSM_return_t)
  | TraceItem.call (Callee.state s) _ _ r => some (s, r)
  | _ => none

/-- The states whose handlers a trace invokes with signal `sig`, in order. -/
def invokedWith (sig : HSM_Signal) (tr : List TraceItem) : List StatePtr :=
  tr.filterMap fun it =>
    match it with
    | TraceItem.call (Callee.state s) e _ _ => if e.sig = sig then some s else none
    | _ => none

/-- Is the item an assignment to `pState__`? -/
def TraceItem.isSetState : TraceItem → Bool
  | TraceItem.setState _ => true
  | _ => false

/-! ## Vocabulary of the proofs -/

/-- The shape of an ascending walk (HSM.c:81-96) from `cur`, as the list of the
states invoked with the values returned: the walk ends at a null pointer, at the
boundary or after `HSM_SUPPRESS_SUPERSTATES`; after
`HSM_SUPPRESS_IMMEDIATE_SUPERSTATE` it resumes at the superstate of the
superstate. -/
def WalkShape {W : Type} (prog : Program W) (stop : Option StatePtr) :
    Option StatePtr → List (StatePtr × HSM_return_t) → Prop
  | cur, [] => cur = none ∨ cur = stop
  | cur, (s, r) :: rest =>
    cur = some s ∧ cur ≠ stop ∧
      match r with
      | HSM_SUPPRESS_SUPERSTATES => rest = []
      | HSM_SUPPRESS_IMMEDIATE_SUPERSTATE =>
        match (prog.state s).superState with
        | some q => WalkShape prog stop (prog.state q).superState rest
        | none => WalkShape prog stop none rest
      | HSM_CONTINUE => WalkShape prog stop (prog.state s).superState rest

/-- The trace of a run, if the run has a result. -/
def traceOf {W : Type} : Except Fault (Sys W) → Option (List TraceItem)
  | .ok s => some s.trace
  | .error _ => none

/-- The machine of a run, if the run has a result. -/
def machineOf {W : Type} : Except Fault (Sys W) → Option HSM_Fsm
  | .ok s => some s.me
  | .error _ => none

/-- The latest event of the machine is an entry or exit event: `HSM_Transition`
then ignores every request (HSM.c:54-57). -/
def Frozen (me : HSM_Fsm) : Prop :=
  ∃ ev, me.pLatestEvent = some ev ∧ (ev.sig = HSM_SIG_ENTRY ∨ ev.sig = HSM_SIG_EXIT)

/-- What handler invocations leave alone in the machine: every field except the
pending target, and the pending target as well when the latest event is an entry
or exit event. -/
def Frame (me me1 : HSM_Fsm) : Prop :=
  me1.pState__ = me.pState__ ∧ me1.pLatestEvent = me.pLatestEvent ∧
    me1.fnGenericEvtHandler = me.fnGenericEvtHandler ∧ (Frozen me → me1 = me)

/-- The item is an invocation of the handler of some state with event `e`, which
sees the active state `active`; the value logged is the value the handler
returns. -/
def StateCallOf {W : Type} (prog : Program W) (e : HSM_Event) (active : Option StatePtr)
    (it : TraceItem) : Prop :=
  ∃ s m r w, it = TraceItem.call (Callee.state s) e m r ∧ m.pState__ = active ∧
    r = (prog.fn (prog.state s).handlerFn w m e).retVal

/-- The item is an invocation of some handler (of a state or the generic one) with
event `e`, which sees the active state `active`. -/
def CallOf (e : HSM_Event) (active : Option StatePtr) (it : TraceItem) : Prop :=
  ∃ cl m r, it = TraceItem.call cl e m r ∧ m.pState__ = active

/-- The items the prologue of `__Dispatch` appends: none, or one invocation of the
generic handler with event `e`, which sees the active state `active`. -/
def ObserverItems (e : HSM_Event) (active : Option StatePtr) (obs : List TraceItem) : Prop :=
  obs = [] ∨ ∃ m r, obs = [TraceItem.call Callee.observer e m r] ∧ m.pState__ = active

/-! ## A concrete tree

States `0` (root), `1` (child of `0`), `2` and `3` (children of `1`), `4` (child
of `0`); every other address is a root of its own.  The handler of a state is
found at the address of the state. -/

/-- The state objects of the concrete tree. -/
def demoState : StatePtr → HSM_State
  | 1 => { handlerFn := 1, superState := some 0, identifier := 1 }
  | 2 => { handlerFn := 2, superState := some 1, identifier := 2 }
  | 3 => { handlerFn := 3, superState := some 1, identifier := 3 }
  | 4 => { handlerFn := 4, superState := some 0, identifier := 4 }
  | n => { handlerFn := n, superState := none, identifier := 0 }

/-- Handlers for the concrete tree.  The handler of state `2` returns `exitRet`
on an exit event, `HSM_CONTINUE` on an entry event, and on any other event
requests the transitions `requests` and returns `userRet`; it also makes the
requests `always` on every event.  All other handlers return `HSM_CONTINUE`
and request nothing. -/
def demoFn (requests always : List (Option StatePtr)) (exitRet userRet : HSM_return_t) :
    FnPtr → HSM_State_fn Unit
  | 2 => fun w _ e =>
    if e.sig = HSM_SIG_EXIT then { retVal := exitRet, requests := always, world := w }
    else if e.sig = HSM_SIG_ENTRY then
      { retVal := HSM_CONTINUE, requests := always, world := w }
    else { retVal := userRet, requests := requests ++ always, world := w }
  | _ => fun w _ _ => { retVal := HSM_CONTINUE, requests := [], world := w }

/-- The concrete tree with the handlers `demoFn`. -/
def demoProg (requests always : List (Option StatePtr)) (exitRet userRet : HSM_return_t) :
    Program Unit :=
  { state := demoState, fn := demoFn requests always exitRet userRet }

/-- A system around the machine `me`: empty logs, `stateList` zero-initialised. -/
def sysOf (me : HSM_Fsm) : Sys Unit :=
  { me := me, world := (), stateList := fun _ => none, trace := [], requested := [] }

/-- The machine of the concrete tree once constructed with initial state `2` and
no generic handler. -/
def demoSys : Sys Unit := sysOf (HSM_FsmCtor (some 2) none)

/-- The same machine with a generic handler: the code at address `2`, which is
also the handler of state `2`. -/
def demoSysObserved : Sys Unit := sysOf (HSM_FsmCtor (some 2) (some 2))

/-- The system a bubbling pass (boundary none, ascending) leaves, for use where
the pass is known to return. -/
def passOf (prog : Program Unit) (fuel : Nat) (sys : Sys Unit) (e : HSM_Event) : Sys Unit :=
  match dispatchPass prog fuel sys e none false with
  | .ok s => s
  | .error _ => sys

/-- An application event. -/
def userEvt : HSM_Event := { sig := HSM_SIG_USER_START, zone_number := 0 }

/-! ## Vocabulary for the life cycle, the queries and the scenarios -/

/-- An acyclic tree (or forest), of any depth: from every state the superstate
links end at a root. -/
def Acyclic {W : Type} (prog : Program W) : Prop :=
  ∀ s : StatePtr, ∃ c, IsChain prog (some s) c

/-- `x` is the state `y` or one of its ancestors: it lies on the chain of
superstate links from `y` to its root. -/
def ancestorOrSelf {W : Type} (prog : Program W) (x y : StatePtr) : Prop :=
  ∃ c, IsChain prog (some y) c ∧ x ∈ c

/-- The state and the signal of an invocation of a state handler. -/
def TraceItem.callSig : TraceItem → Option (StatePtr × HSM_Signal)
  | TraceItem.call (Callee.state s) e _ _ => some (s, e.sig)
  | _ => none

/-- A call `HSM_StateIsActive(me, pState)` (HSM.c:115-124) in state-passing form:
the function only reads through `me`, so it leaves the system it finds. -/
def stateIsActiveCall {W : Type} (prog : Program W) (fuel : Nat) (sys : Sys W)
    (pState : Option StatePtr) : Except Fault (Bool × Sys W) :=
  match HSM_StateIsActive prog fuel sys.me pState with
  | .ok b => .ok (b, sys)
  | .error f => .error f

/-- The system `HSM_FsmInit` leaves, for use where it is known to return. -/
def initOf (prog : Program Unit) (fuel : Nat) (sys : Sys Unit) : Sys Unit :=
  match HSM_FsmInit prog fuel sys with
  | .ok s => s
  | .error _ => sys

/-- The machine of the concrete tree with stale contents in `stateList`, as a
pass over an unrelated chain could have left them. -/
def demoSysStale : Sys Unit := { demoSys with stateList := fun _ => some 4 }

/-! ## Ancestor chains -/

theorem isChain_of_superChain {W : Type} (prog : Program W) :
    ∀ (n : Nat) (cur : Option StatePtr) (c : List StatePtr),
      superChain prog n cur = some c → IsChain prog cur c ∧ c.length ≤ n := by
  intro n
  induction n with
  | zero =>
    intro cur c h
    cases cur with
    | none =>
      simp [superChain] at h
      subst h
      simp [IsChain]
    | some p => simp [superChain] at h
  | succ n ih =>
    intro cur c h
    cases cur with
    | none =>
      simp [superChain] at h
      subst h
      simp [IsChain]
    | some p =>
      cases h1 : superChain prog n (prog.state p).superState with
      | none => simp [superChain, h1] at h
      | some c1 =>
        simp [superChain, h1] at h
        subst h
        have := ih _ _ h1
        exact ⟨⟨rfl, this.1⟩, by simpa using this.2⟩

theorem superChain_of_isChain {W : Type} (prog : Program W) :
    ∀ (c : List StatePtr) (cur : Option StatePtr) (n : Nat),
      IsChain prog cur c → c.length ≤ n → superChain prog n cur = some c := by
  intro c
  induction c with
  | nil =>
    intro cur n h _
    simp only [IsChain] at h
    subst h
    cases n <;> simp [superChain]
  | cons p c ih =>
    intro cur n h hn
    obtain ⟨h1, h2⟩ := h
    subst h1
    cases n with
    | zero => simp at hn
    | succ n =>
      have hn1 : c.length ≤ n := by simpa using hn
      simp [superChain, ih _ n h2 hn1]

theorem isChain_unique {W : Type} (prog : Program W) :
    ∀ (c d : List StatePtr) (cur : Option StatePtr),
      IsChain prog cur c → IsChain prog cur d → c = d := by
  intro c
  induction c with
  | nil =>
    intro d cur h1 h2
    simp only [IsChain] at h1
    subst h1
    cases d with
    | nil => rfl
    | cons q d => simp [IsChain] at h2
  | cons p c ih =>
    intro d cur h1 h2
    obtain ⟨h1a, h1b⟩ := h1
    subst h1a
    cases d with
    | nil => simp [IsChain] at h2
    | cons q d =>
      obtain ⟨h2a, h2b⟩ := h2
      have hq : p = q := by simpa using h2a
      subst hq
      rw [ih d _ h1b h2b]

/-- The chain of a state on a chain is the rest of that chain. -/
theorem isChain_split {W : Type} (prog : Program W) :
    ∀ (c : List StatePtr) (cur : Option StatePtr) (s : StatePtr),
      IsChain prog cur c → s ∈ c →
        ∃ c1 c2, c = c1 ++ s :: c2 ∧ IsChain prog (prog.state s).superState c2 := by
  intro c
  induction c with
  | nil => intro cur s _ hs; simp at hs
  | cons p c ih =>
    intro cur s h hs
    obtain ⟨_, h2⟩ := h
    rcases List.mem_cons.mp hs with hsp | hsc
    · subst hsp
      exact ⟨[], c, rfl, h2⟩
    · obtain ⟨c1, c2, hc, hch⟩ := ih _ s h2 hsc
      exact ⟨p :: c1, c2, by simp [hc], hch⟩

/-- A chain that ends passes through no state twice: the tree has no cycle. -/
theorem isChain_nodup {W : Type} (prog : Program W) :
    ∀ (c : List StatePtr) (cur : Option StatePtr), IsChain prog cur c → c.Nodup := by
  intro c
  induction c with
  | nil => intro _ _; exact List.nodup_nil
  | cons p c ih =>
    intro cur h
    obtain ⟨_, h2⟩ := h
    refine List.nodup_cons.mpr ⟨?_, ih _ h2⟩
    intro hp
    obtain ⟨c1, c2, hc, hch⟩ := isChain_split prog c _ p h2 hp
    have := isChain_unique prog _ _ _ h2 hch
    have hlen := congrArg List.length hc
    rw [← this] at hlen
    simp at hlen
    omega

theorem wellFormed_chain {W : Type} (prog : Program W) (hwf : WellFormed prog)
    (cur : Option StatePtr) :
    ∃ c, IsChain prog cur c ∧ c.length ≤ HSM_MAX_HIERARCHY_DEPTH ∧
      superChain prog HSM_MAX_HIERARCHY_DEPTH cur = some c := by
  cases cur with
  | none => exact ⟨[], rfl, by simp, by simp [superChain]⟩
  | some s =>
    obtain ⟨c, hc⟩ := hwf s
    have := isChain_of_superChain prog _ _ _ hc
    exact ⟨c, this.1, this.2, hc⟩

theorem demoProg_wellFormed (requests always : List (Option StatePtr))
    (exitRet userRet : HSM_return_t) :
    WellFormed (demoProg requests always exitRet userRet) := by
  intro s
  match s with
  | 0 => exact ⟨[0], by simp [superChain, demoProg, demoState, HSM_MAX_HIERARCHY_DEPTH]⟩
  | 1 => exact ⟨[1, 0], by simp [superChain, demoProg, demoState, HSM_MAX_HIERARCHY_DEPTH]⟩
  | 2 => exact ⟨[2, 1, 0], by simp [superChain, demoProg, demoState, HSM_MAX_HIERARCHY_DEPTH]⟩
  | 3 => exact ⟨[3, 1, 0], by simp [superChain, demoProg, demoState, HSM_MAX_HIERARCHY_DEPTH]⟩
  | 4 => exact ⟨[4, 0], by simp [superChain, demoProg, demoState, HSM_MAX_HIERARCHY_DEPTH]⟩
  | n + 5 => exact ⟨[n + 5], by simp [superChain, demoProg, demoState, HSM_MAX_HIERARCHY_DEPTH]⟩

/-! ## Handler invocations -/

theorem HSM_Transition_frozen (me : HSM_Fsm) (target : Option StatePtr) (h : Frozen me) :
    HSM_Transition me target = me := by
  obtain ⟨ev, hev, hsig⟩ := h
  unfold HSM_Transition
  rw [hev]
  rcases hsig with h1 | h1 <;> simp [h1]

theorem HSM_Transition_fields (me : HSM_Fsm) (target : Option StatePtr) :
    (HSM_Transition me target).pState__ = me.pState__ ∧
      (HSM_Transition me target).pLatestEvent = me.pLatestEvent ∧
      (HSM_Transition me target).fnGenericEvtHandler = me.fnGenericEvtHandler := by
  obtain ⟨a, b, c, d⟩ := me
  cases c with
  | none => simp [HSM_Transition]
  | some ev =>
    by_cases h : ev.sig ≠ HSM_SIG_ENTRY ∧ ev.sig ≠ HSM_SIG_EXIT
    · simp [HSM_Transition, h]
    · simp only [HSM_Transition, h, if_false, and_self]

theorem requests_frozen (requests : List (Option StatePtr)) (me : HSM_Fsm) (h : Frozen me) :
    requests.foldl HSM_Transition me = me := by
  induction requests with
  | nil => rfl
  | cons t ts ih => simp [List.foldl, HSM_Transition_frozen me t h, ih]

theorem requests_fields (requests : List (Option StatePtr)) :
    ∀ me : HSM_Fsm,
      (requests.foldl HSM_Transition me).pState__ = me.pState__ ∧
        (requests.foldl HSM_Transition me).pLatestEvent = me.pLatestEvent ∧
        (requests.foldl HSM_Transition me).fnGenericEvtHandler = me.fnGenericEvtHandler := by
  induction requests with
  | nil => intro me; exact ⟨rfl, rfl, rfl⟩
  | cons t ts ih =>
    intro me
    have h1 := HSM_Transition_fields me t
    have h2 := ih (HSM_Transition me t)
    simp only [List.foldl]
    exact ⟨h2.1.trans h1.1, h2.2.1.trans h1.2.1, h2.2.2.trans h1.2.2⟩

theorem frame_refl (me : HSM_Fsm) : Frame me me :=
  ⟨rfl, rfl, rfl, fun _ => rfl⟩

theorem frame_trans {a b c : HSM_Fsm} (h1 : Frame a b) (h2 : Frame b c) : Frame a c := by
  obtain ⟨a2, a3, a4, a5⟩ := h1
  obtain ⟨b2, b3, b4, b5⟩ := h2
  refine ⟨b2.trans a2, b3.trans a3, b4.trans a4, ?_⟩
  intro hf
  have hb : b = a := a5 hf
  have hfb : Frozen b := by rw [hb]; exact hf
  rw [b5 hfb, hb]

theorem callHandler_spec {W : Type} (prog : Program W) (callee : Callee) (f : FnPtr)
    (e : HSM_Event) (sys : Sys W) :
    (callHandler prog callee f e sys).2.trace =
        sys.trace ++ [TraceItem.call callee e sys.me (callHandler prog callee f e sys).1] ∧
      (callHandler prog callee f e sys).2.stateList = sys.stateList ∧
      Frame sys.me (callHandler prog callee f e sys).2.me := by
  refine ⟨rfl, rfl, ?_, ?_, ?_, ?_⟩
  · exact (requests_fields _ sys.me).1
  · exact (requests_fields _ sys.me).2.1
  · exact (requests_fields _ sys.me).2.2
  · intro hf
    exact requests_frozen _ sys.me hf

/-! ## The ascending walk -/

theorem stateCallOf_of_call {W : Type} (prog : Program W) (e : HSM_Event) (p : StatePtr)
    (sys : Sys W) :
    StateCallOf prog e sys.me.pState__
      (TraceItem.call (Callee.state p) e sys.me
        (callHandler prog (Callee.state p) (prog.state p).handlerFn e sys).1) :=
  ⟨p, sys.me, _, sys.world, rfl, rfl, rfl⟩

/-- An ascending walk over a chain that ends returns, having only appended state
handler invocations to the trace, in the shape `WalkShape`. -/
theorem asc_run {W : Type} (prog : Program W) (e : HSM_Event) (stop : Option StatePtr) :
    ∀ (n : Nat) (cur : Option StatePtr) (c : List StatePtr) (idx : Nat) (sys : Sys W),
      IsChain prog cur c → c.length < n →
      ∃ sys1 items, dispatchLoop prog e stop false n cur idx sys = .ok (sys1, idx) ∧
        sys1.trace = sys.trace ++ items ∧ sys1.stateList = sys.stateList ∧
        Frame sys.me sys1.me ∧
        (∀ it ∈ items, StateCallOf prog e sys.me.pState__ it) ∧
        WalkShape prog stop cur (items.filterMap TraceItem.stepOf) := by
  intro n
  induction n with
  | zero => intro cur c idx sys _ h; omega
  | succ n ih =>
    intro cur c idx sys hc hn
    cases cur with
    | none =>
      exact ⟨sys, [], by simp [dispatchLoop], by simp, rfl, frame_refl _, by simp,
        by simp [WalkShape]⟩
    | some p =>
      by_cases hstop : some p = stop
      · exact ⟨sys, [], by simp [dispatchLoop, hstop], by simp, rfl, frame_refl _, by simp,
          by simp [WalkShape, hstop]⟩
      · cases c with
        | nil => simp [IsChain] at hc
        | cons p1 c1 =>
          obtain ⟨hp, hc1⟩ := hc
          have hp1 : p = p1 := by simpa using hp
          subst hp1
          have hlen : c1.length < n := by simpa using hn
          obtain ⟨htr, hsl, hfr⟩ :=
            callHandler_spec prog (Callee.state p) (prog.state p).handlerFn e sys
          have hsc := stateCallOf_of_call prog e p sys
          generalize hr : callHandler prog (Callee.state p) (prog.state p).handlerFn e sys = res
            at htr hsl hfr hsc
          obtain ⟨ret, sysA⟩ := res
          simp only at htr hsl hfr hsc
          -- the walk resumes at `nxt`, over a chain `c2` shorter than the fuel left
          have resume : ∀ (nxt : Option StatePtr) (c2 : List StatePtr),
              IsChain prog nxt c2 → c2.length < n →
              ∃ sys1 items, dispatchLoop prog e stop false n nxt idx sysA = .ok (sys1, idx) ∧
                sys1.trace = sys.trace ++ (TraceItem.call (Callee.state p) e sys.me ret :: items) ∧
                sys1.stateList = sys.stateList ∧ Frame sys.me sys1.me ∧
                (∀ it ∈ TraceItem.call (Callee.state p) e sys.me ret :: items,
                  StateCallOf prog e sys.me.pState__ it) ∧
                WalkShape prog stop nxt (items.filterMap TraceItem.stepOf) := by
            intro nxt c2 h2 hl2
            obtain ⟨sys1, items, hrun, htr1, hsl1, hfr1, hit1, hw1⟩ := ih nxt c2 idx sysA h2 hl2
            refine ⟨sys1, items, hrun, ?_, hsl1.trans hsl, frame_trans hfr hfr1, ?_, hw1⟩
            · rw [htr1, htr]; simp
            · intro it hit
              rcases List.mem_cons.mp hit with h | h
              · rw [h]; exact hsc
              · have := hit1 it h
                rw [hfr.1] at this
                exact this
          cases ret with
          | HSM_SUPPRESS_SUPERSTATES =>
            refine ⟨sysA, [TraceItem.call (Callee.state p) e sys.me HSM_SUPPRESS_SUPERSTATES],
              ?_, htr, hsl, hfr, ?_, ?_⟩
            · simp [dispatchLoop, hstop, hr]
            · intro it hit
              rw [List.mem_singleton.mp hit]
              exact hsc
            · simp [TraceItem.stepOf, WalkShape, hstop]
          | HSM_CONTINUE =>
            obtain ⟨sys1, items, hrun, htr1, hsl1, hfr1, hit1, hw1⟩ :=
              resume (prog.state p).superState c1 hc1 hlen
            refine ⟨sys1, _, ?_, htr1, hsl1, hfr1, hit1, ?_⟩
            · simp [dispatchLoop, hstop, hr, hrun]
            · simp [TraceItem.stepOf, WalkShape, hstop, hw1]
          | HSM_SUPPRESS_IMMEDIATE_SUPERSTATE =>
            cases hq : (prog.state p).superState with
            | none =>
              rw [hq] at hc1
              obtain ⟨sys1, items, hrun, htr1, hsl1, hfr1, hit1, hw1⟩ := resume none c1 hc1 hlen
              refine ⟨sys1, _, ?_, htr1, hsl1, hfr1, hit1, ?_⟩
              · simp [dispatchLoop, hstop, hr, hq, hrun]
              · simp [TraceItem.stepOf, WalkShape, hstop, hq, hw1]
            | some q =>
              rw [hq] at hc1
              cases c1 with
              | nil => simp [IsChain] at hc1
              | cons q1 c2 =>
                obtain ⟨hq1, hc2⟩ := hc1
                have hqq : q = q1 := by simpa using hq1
                subst hqq
                have hlen2 : c2.length < n := by
                  simp at hlen; omega
                obtain ⟨sys1, items, hrun, htr1, hsl1, hfr1, hit1, hw1⟩ :=
                  resume (prog.state q).superState c2 hc2 hlen2
                refine ⟨sys1, _, ?_, htr1, hsl1, hfr1, hit1, ?_⟩
                · simp [dispatchLoop, hstop, hr, hq, hrun]
                · simp [TraceItem.stepOf, WalkShape, hstop, hq, hw1]

/-- Every state an ascending walk invokes lies on the chain it walks. -/
theorem walk_subset {W : Type} (prog : Program W) (stop : Option StatePtr) :
    ∀ (steps : List (StatePtr × HSM_return_t)) (cur : Option StatePtr) (c : List StatePtr),
      IsChain prog cur c → WalkShape prog stop cur steps → ∀ x ∈ steps, x.1 ∈ c := by
  intro steps
  induction steps with
  | nil => intro _ _ _ _ x hx; simp at hx
  | cons st rest ih =>
    intro cur c hc hw x hx
    obtain ⟨s, r⟩ := st
    obtain ⟨hcur, _, hrest⟩ := hw
    subst hcur
    cases c with
    | nil => simp [IsChain] at hc
    | cons p c1 =>
      obtain ⟨hp, hc1⟩ := hc
      have hps : s = p := by simpa using hp
      subst hps
      rcases List.mem_cons.mp hx with h | h
      · rw [h]; simp
      · cases r with
        | HSM_SUPPRESS_SUPERSTATES =>
          simp only at hrest
          rw [hrest] at h
          simp at h
        | HSM_CONTINUE =>
          simp only at hrest
          exact List.mem_cons_of_mem _ (ih _ _ hc1 hrest x h)
        | HSM_SUPPRESS_IMMEDIATE_SUPERSTATE =>
          simp only at hrest
          cases hq : (prog.state s).superState with
          | none =>
            rw [hq] at hrest
            have : x.1 ∈ ([] : List StatePtr) := ih none [] rfl hrest x h
            simp at this
          | some q =>
            rw [hq] at hrest hc1
            cases c1 with
            | nil => simp [IsChain] at hc1
            | cons q1 c2 =>
              obtain ⟨_, hc2⟩ := hc1
              have := ih _ _ (by
                have hqq : q = q1 := by simpa using ‹some q = some q1›
                subst hqq
                exact hc2) hrest x h
              exact List.mem_cons_of_mem _ (List.mem_cons_of_mem _ this)

/-- A walk in which every handler returns `HSM_CONTINUE` invokes exactly the
states of the chain below the boundary. -/
theorem walk_all_continue {W : Type} (prog : Program W) (stop : Option StatePtr) :
    ∀ (steps : List (StatePtr × HSM_return_t)) (cur : Option StatePtr) (c : List StatePtr),
      IsChain prog cur c → WalkShape prog stop cur steps →
      (∀ x ∈ steps, x.2 = HSM_CONTINUE) → steps.map Prod.fst = below stop c := by
  intro steps
  induction steps with
  | nil =>
    intro cur c hc hw _
    cases c with
    | nil => simp [below]
    | cons p c1 =>
      obtain ⟨hp, _⟩ := hc
      subst hp
      rcases hw with h | h
      · simp at h
      · simp [below, h]
  | cons st rest ih =>
    intro cur c hc hw hall
    obtain ⟨s, r⟩ := st
    obtain ⟨hcur, hns, hrest⟩ := hw
    subst hcur
    have hr : r = HSM_CONTINUE := hall (s, r) (by simp)
    subst hr
    cases c with
    | nil => simp [IsChain] at hc
    | cons p c1 =>
      obtain ⟨hp, hc1⟩ := hc
      have hps : s = p := by simpa using hp
      subst hps
      simp only at hrest
      have := ih _ _ hc1 hrest (fun x hx => hall x (List.mem_cons_of_mem _ hx))
      simp only [below] at this
      simp [below, hns, this]

/-- A walk that reaches the step `(s, r)` has before it only states that lie on the
chain strictly below `s`, and goes on from `s` as a walk of its own. -/
theorem walk_split {W : Type} (prog : Program W) (stop : Option StatePtr)
    (s : StatePtr) (r : HSM_return_t) (post : List (StatePtr × HSM_return_t)) :
    ∀ (pre : List (StatePtr × HSM_return_t)) (cur : Option StatePtr) (c : List StatePtr),
      IsChain prog cur c → WalkShape prog stop cur (pre ++ (s, r) :: post) →
      ∃ c1 c2, c = c1 ++ s :: c2 ∧ (∀ x ∈ pre, x.1 ∈ c1) ∧
        IsChain prog (prog.state s).superState c2 ∧
        WalkShape prog stop (some s) ((s, r) :: post) := by
  intro pre
  induction pre with
  | nil =>
    intro cur c hc hw
    have hw0 := hw
    obtain ⟨hcur, _, _⟩ := hw
    subst hcur
    cases c with
    | nil => simp [IsChain] at hc
    | cons p c1 =>
      obtain ⟨hp, hc1⟩ := hc
      have hps : s = p := by simpa using hp
      subst hps
      exact ⟨[], c1, rfl, by simp, hc1, hw0⟩
  | cons st pre1 ih =>
    intro cur c hc hw
    obtain ⟨p, r0⟩ := st
    obtain ⟨hcur, _, hrest⟩ := hw
    subst hcur
    cases c with
    | nil => simp [IsChain] at hc
    | cons p1 c1 =>
      obtain ⟨hp, hc1⟩ := hc
      have hps : p = p1 := by simpa using hp
      subst hps
      cases r0 with
      | HSM_SUPPRESS_SUPERSTATES =>
        simp at hrest
      | HSM_CONTINUE =>
        simp only at hrest
        obtain ⟨d1, d2, hd, hpre, hch, hws⟩ := ih _ _ hc1 hrest
        refine ⟨p :: d1, d2, by simp [hd], ?_, hch, hws⟩
        intro x hx
        rcases List.mem_cons.mp hx with h | h
        · rw [h]; simp
        · exact List.mem_cons_of_mem _ (hpre x h)
      | HSM_SUPPRESS_IMMEDIATE_SUPERSTATE =>
        simp only at hrest
        cases hq : (prog.state p).superState with
        | none =>
          rw [hq] at hrest
          obtain ⟨d1, d2, hd, _⟩ := ih none [] rfl hrest
          simp at hd
        | some q =>
          rw [hq] at hrest hc1
          cases c1 with
          | nil => simp [IsChain] at hc1
          | cons q1 c2 =>
            obtain ⟨hq1, hc2⟩ := hc1
            have hqq : q = q1 := by simpa using hq1
            subst hqq
            obtain ⟨d1, d2, hd, hpre, hch, hws⟩ := ih _ _ hc2 hrest
            refine ⟨p :: q :: d1, d2, by simp [hd], ?_, hch, hws⟩
            intro x hx
            rcases List.mem_cons.mp hx with h | h
            · rw [h]; simp
            · exact List.mem_cons_of_mem _ (List.mem_cons_of_mem _ (hpre x h))

/-! ## The descending pass -/

/-- The collecting loop over a chain that fits the array returns, having stored
the states below the boundary at consecutive indices from `idx`. -/
theorem desc_collect {W : Type} (prog : Program W) (e : HSM_Event) (stop : Option StatePtr) :
    ∀ (n : Nat) (cur : Option StatePtr) (c : List StatePtr) (idx : Nat) (sys : Sys W),
      IsChain prog cur c → c.length < n → idx + c.length ≤ HSM_MAX_HIERARCHY_DEPTH →
      ∃ buf, dispatchLoop prog e stop true n cur idx sys =
          .ok ({ sys with stateList := buf }, idx + (below stop c).length) ∧
        (∀ i s, (below stop c)[i]? = some s → buf (idx + i) = some s) ∧
        ∀ j, j < idx → buf j = sys.stateList j := by
  intro n
  induction n with
  | zero => intro cur c idx sys _ h; omega
  | succ n ih =>
    intro cur c idx sys hc hn hfit
    cases cur with
    | none =>
      cases c with
      | nil => exact ⟨sys.stateList, by simp [dispatchLoop, below], by simp [below], by simp⟩
      | cons p c1 => simp [IsChain] at hc
    | some p =>
      cases c with
      | nil => simp [IsChain] at hc
      | cons p1 c1 =>
        obtain ⟨hp, hc1⟩ := hc
        have hp1 : p = p1 := by simpa using hp
        subst hp1
        by_cases hstop : some p = stop
        · exact ⟨sys.stateList, by simp [dispatchLoop, hstop, below], by simp [below, hstop],
            by simp⟩
        · have hlen : c1.length < n := by simpa using hn
          have hidx : idx < HSM_MAX_HIERARCHY_DEPTH := by
            simp at hfit; omega
          have hfit1 : idx + 1 + c1.length ≤ HSM_MAX_HIERARCHY_DEPTH := by
            simp at hfit; omega
          obtain ⟨buf, hrun, hget, hlow⟩ :=
            ih (prog.state p).superState c1 (idx + 1)
              { sys with stateList := Function.update sys.stateList idx (some p) } hc1 hlen hfit1
          have hb : below stop (p :: c1) = p :: below stop c1 := by simp [below, hstop]
          refine ⟨buf, ?_, ?_, ?_⟩
          · simp only [dispatchLoop, hstop, if_false, if_true, hidx, hrun, hb, List.length_cons]
            have : idx + 1 + (below stop c1).length = idx + ((below stop c1).length + 1) := by
              omega
            rw [this]
          · intro i s hi
            rw [hb] at hi
            cases i with
            | zero =>
              simp only [List.getElem?_cons_zero, Option.some.injEq] at hi
              subst hi
              have := hlow idx (by omega)
              simpa using this
            | succ i =>
              simp only [List.getElem?_cons_succ] at hi
              have := hget i s hi
              have h2 : idx + 1 + i = idx + (i + 1) := by omega
              rw [h2] at this
              exact this
          · intro j hj
            have := hlow j (by omega)
            rw [this]
            simp only
            rw [Function.update_noteq (by omega)]

/-- The invoking loop of the descending pass returns, having invoked the handlers
of the stored states from the last stored to the first. -/
theorem enter_run {W : Type} (prog : Program W) (e : HSM_Event) :
    ∀ (l : List StatePtr) (sys : Sys W),
      (∀ i s, l[i]? = some s → sys.stateList i = some s) →
      l.length ≤ HSM_MAX_HIERARCHY_DEPTH →
      ∃ sys1 items, enterLoop prog e l.length sys = .ok sys1 ∧
        sys1.trace = sys.trace ++ items ∧ sys1.stateList = sys.stateList ∧
        Frame sys.me sys1.me ∧
        (∀ it ∈ items, StateCallOf prog e sys.me.pState__ it) ∧
        items.filterMap TraceItem.stateOf = l.reverse := by
  intro l
  induction l using List.reverseRecOn with
  | nil =>
    intro sys _ _
    exact ⟨sys, [], by simp [enterLoop], by simp, rfl, frame_refl _, by simp, by simp⟩
  | append_singleton l p ih =>
    intro sys hbuf hlen
    have hl : l.length < HSM_MAX_HIERARCHY_DEPTH := by
      simp at hlen; omega
    have hp : sys.stateList l.length = some p := hbuf l.length p (by simp)
    obtain ⟨htr, hsl, hfr⟩ :=
      callHandler_spec prog (Callee.state p) (prog.state p).handlerFn e sys
    have hsc := stateCallOf_of_call prog e p sys
    generalize hr : callHandler prog (Callee.state p) (prog.state p).handlerFn e sys = res
      at htr hsl hfr hsc
    obtain ⟨ret, sysA⟩ := res
    simp only at htr hsl hfr hsc
    have hbufA : ∀ i s, l[i]? = some s → sysA.stateList i = some s := by
      intro i s hi
      rw [hsl]
      apply hbuf
      have hlt : i < l.length := by
        by_contra hcon
        rw [List.getElem?_eq_none (by omega)] at hi
        simp at hi
      rw [List.getElem?_append_left hlt]
      exact hi
    obtain ⟨sys1, items, hrun, htr1, hsl1, hfr1, hit1, hst1⟩ := ih sysA hbufA (by omega)
    refine ⟨sys1, TraceItem.call (Callee.state p) e sys.me ret :: items, ?_, ?_,
      hsl1.trans hsl, frame_trans hfr hfr1, ?_, ?_⟩
    · simp [enterLoop, hl, hp, hr, hrun]
    · rw [htr1, htr]; simp
    · intro it hit
      rcases List.mem_cons.mp hit with h | h
      · rw [h]; exact hsc
      · have := hit1 it h
        rw [hfr.1] at this
        exact this
    · simp [TraceItem.stateOf, hst1]

/-! ## One pass of `__Dispatch` -/

theorem prologue_spec {W : Type} (prog : Program W) (sys : Sys W) (e : HSM_Event) :
    ∃ obs, (dispatchPrologue prog sys e).trace = sys.trace ++ obs ∧
      (dispatchPrologue prog sys e).stateList = sys.stateList ∧
      Frame { sys.me with pLatestEvent := some e } (dispatchPrologue prog sys e).me ∧
      ObserverItems e sys.me.pState__ obs := by
  unfold dispatchPrologue
  simp only
  split
  · next f _ =>
    obtain ⟨htr, hsl, hfr⟩ := callHandler_spec prog Callee.observer f e
      { sys with me := { sys.me with pLatestEvent := some e } }
    exact ⟨_, htr, hsl, hfr, Or.inr ⟨_, _, rfl, rfl⟩⟩
  · exact ⟨[], by simp, rfl, frame_refl _, Or.inl rfl⟩

/-- An ascending pass over a chain that ends returns; it appends the invocation of
the generic handler and the invocations of the walk. -/
theorem pass_asc {W : Type} (prog : Program W) (fuel : Nat) (e : HSM_Event)
    (stop : Option StatePtr) (sys : Sys W) (c : List StatePtr)
    (hc : IsChain prog sys.me.pState__ c) (hlen : c.length < fuel) :
    ∃ sys1 obs items, dispatchPass prog fuel sys e stop false = .ok sys1 ∧
      sys1.trace = sys.trace ++ obs ++ items ∧ sys1.stateList = sys.stateList ∧
      Frame { sys.me with pLatestEvent := some e } sys1.me ∧
      ObserverItems e sys.me.pState__ obs ∧
      (∀ it ∈ items, StateCallOf prog e sys.me.pState__ it) ∧
      WalkShape prog stop sys.me.pState__ (items.filterMap TraceItem.stepOf) := by
  obtain ⟨obs, htr0, hsl0, hfr0, hobs⟩ := prologue_spec prog sys e
  have hact : (dispatchPrologue prog sys e).me.pState__ = sys.me.pState__ := hfr0.1
  have hc2 : IsChain prog (dispatchPrologue prog sys e).me.pState__ c := by rw [hact]; exact hc
  obtain ⟨sys1, items, hrun, htr1, hsl1, hfr1, hit1, hw1⟩ :=
    asc_run prog e stop fuel _ c 0 (dispatchPrologue prog sys e) hc2 hlen
  refine ⟨sys1, obs, items, ?_, ?_, hsl1.trans hsl0, frame_trans hfr0 hfr1, hobs, ?_, ?_⟩
  · simp [dispatchPass, hrun]
  · rw [htr1, htr0]
  · rw [← hact]; exact hit1
  · rw [← hact]; exact hw1

theorem below_length_le (stop : Option StatePtr) (c : List StatePtr) :
    (below stop c).length ≤ c.length := by
  unfold below
  exact (List.takeWhile_sublist _).length_le

/-- A descending pass over a chain that ends and fits the array returns; it appends
the invocation of the generic handler and then the invocations of the handlers of
the states below the boundary, the outermost first. -/
theorem pass_desc {W : Type} (prog : Program W) (fuel : Nat) (e : HSM_Event)
    (stop : Option StatePtr) (sys : Sys W) (c : List StatePtr)
    (hc : IsChain prog sys.me.pState__ c) (hlen : c.length < fuel)
    (hfit : c.length ≤ HSM_MAX_HIERARCHY_DEPTH) :
    ∃ sys1 obs items, dispatchPass prog fuel sys e stop true = .ok sys1 ∧
      sys1.trace = sys.trace ++ obs ++ items ∧
      Frame { sys.me with pLatestEvent := some e } sys1.me ∧
      ObserverItems e sys.me.pState__ obs ∧
      (∀ it ∈ items, StateCallOf prog e sys.me.pState__ it) ∧
      items.filterMap TraceItem.stateOf = (below stop c).reverse := by
  obtain ⟨obs, htr0, hsl0, hfr0, hobs⟩ := prologue_spec prog sys e
  have hact : (dispatchPrologue prog sys e).me.pState__ = sys.me.pState__ := hfr0.1
  have hc2 : IsChain prog (dispatchPrologue prog sys e).me.pState__ c := by rw [hact]; exact hc
  obtain ⟨buf, hrun, hget, _⟩ :=
    desc_collect prog e stop fuel _ c 0 (dispatchPrologue prog sys e) hc2 hlen (by omega)
  obtain ⟨sys1, items, hrun1, htr1, _, hfr1, hit1, hst1⟩ :=
    enter_run prog e (below stop c) { dispatchPrologue prog sys e with stateList := buf }
      (by
        intro i s hi
        have := hget i s hi
        simpa using this)
      (le_trans (below_length_le stop c) hfit)
  refine ⟨sys1, obs, items, ?_, ?_, frame_trans hfr0 hfr1, hobs, ?_, hst1⟩
  · simp only [dispatchPass, hrun, Nat.zero_add, if_true]
    exact hrun1
  · rw [htr1]
    simp only
    rw [htr0]
  · intro it hit
    have := hit1 it hit
    simp only at this
    rw [hact] at this
    exact this

/-! ## The lowest common superstate -/

theorem lcsInner_total {W : Type} (prog : Program W) (p1 : StatePtr) :
    ∀ (n : Nat) (cur : Option StatePtr) (c : List StatePtr),
      IsChain prog cur c → c.length < n → ∃ b, lcsInner prog p1 n cur = .ok b := by
  intro n
  induction n with
  | zero => intro cur c _ h; omega
  | succ n ih =>
    intro cur c hc hn
    cases c with
    | nil =>
      simp only [IsChain] at hc
      subst hc
      exact ⟨false, rfl⟩
    | cons p c1 =>
      obtain ⟨hp, hc1⟩ := hc
      subst hp
      by_cases h : p1 = p
      · exact ⟨true, by simp [lcsInner, h]⟩
      · obtain ⟨b, hb⟩ := ih _ c1 hc1 (by simpa using hn)
        exact ⟨b, by simp [lcsInner, h, hb]⟩

theorem lcsOuter_total {W : Type} (prog : Program W) (fuel : Nat) (state2 : Option StatePtr)
    (c2 : List StatePtr) (hc2 : IsChain prog state2 c2) (hl2 : c2.length < fuel) :
    ∀ (n : Nat) (cur : Option StatePtr) (c : List StatePtr),
      IsChain prog cur c → c.length < n → ∃ l, lcsOuter prog fuel state2 n cur = .ok l := by
  intro n
  induction n with
  | zero => intro cur c _ h; omega
  | succ n ih =>
    intro cur c hc hn
    cases c with
    | nil =>
      simp only [IsChain] at hc
      subst hc
      exact ⟨none, rfl⟩
    | cons p c1 =>
      obtain ⟨hp, hc1⟩ := hc
      subst hp
      obtain ⟨b, hb⟩ := lcsInner_total prog p fuel state2 c2 hc2 hl2
      cases b with
      | true => exact ⟨some p, by simp [lcsOuter, hb]⟩
      | false =>
        obtain ⟨l, hl⟩ := ih _ c1 hc1 (by simpa using hn)
        exact ⟨l, by simp [lcsOuter, hb, hl]⟩

theorem lcs_total {W : Type} (prog : Program W) (fuel : Nat) (s1 s2 : Option StatePtr)
    (c1 c2 : List StatePtr) (h1 : IsChain prog s1 c1) (hl1 : c1.length < fuel)
    (h2 : IsChain prog s2 c2) (hl2 : c2.length < fuel) :
    ∃ l, __lowestCommonSuperstate prog fuel s1 s2 = .ok l :=
  lcsOuter_total prog fuel s2 c2 h2 hl2 fuel s1 c1 h1 hl1

theorem lcs_self {W : Type} (prog : Program W) (fuel : Nat) (s : StatePtr) (h : 0 < fuel) :
    __lowestCommonSuperstate prog fuel (some s) (some s) = .ok (some s) := by
  obtain ⟨n, rfl⟩ : ∃ n, fuel = n + 1 := ⟨fuel - 1, by omega⟩
  simp [__lowestCommonSuperstate, lcsOuter, lcsInner]

/-! ## Transitions -/

/-- A dispatch of an entry or exit event on a machine without pending target is
its pass alone: no handler can record a target, so no transition follows. -/
theorem dispatch_frozen {W : Type} (prog : Program W) (fuel depth : Nat) (sys sys1 : Sys W)
    (e : HSM_Event) (stop : Option StatePtr) (descending : Bool)
    (hsig : e.sig = HSM_SIG_ENTRY ∨ e.sig = HSM_SIG_EXIT)
    (hpend : sys.me.pTransitionTarget = none)
    (hpass : dispatchPass prog fuel sys e stop descending = .ok sys1)
    (hfr : Frame { sys.me with pLatestEvent := some e } sys1.me) :
    __Dispatch prog fuel (depth + 1) sys e stop descending = .ok sys1 ∧
      sys1.me = { sys.me with pLatestEvent := some e } := by
  have hme : sys1.me = { sys.me with pLatestEvent := some e } := hfr.2.2.2 ⟨e, rfl, hsig⟩
  have hp : sys1.me.pTransitionTarget = none := by rw [hme]; exact hpend
  exact ⟨by simp [__Dispatch, hpass, hp], hme⟩

/-- A transition over chains that end and fit the array returns.  Its trace is an
exit pass, the assignment of the active state and an entry pass. -/
theorem transition_run {W : Type} (prog : Program W) (fuel depth : Nat) (sys : Sys W)
    (T : StatePtr) (cS cT : List StatePtr)
    (hS : IsChain prog sys.me.pState__ cS) (hlS : cS.length < fuel)
    (hT : IsChain prog (some T) cT) (hlT : cT.length < fuel)
    (hfit : cT.length ≤ HSM_MAX_HIERARCHY_DEPTH)
    (hpend : sys.me.pTransitionTarget = none) :
    ∃ L sys2 obsX exits obsN entries,
      __lowestCommonSuperstate prog fuel sys.me.pState__ (some T) = .ok L ∧
      transitionWith prog fuel (__Dispatch prog fuel (depth + 1)) sys T = .ok sys2 ∧
      sys2.trace = sys.trace ++ (obsX ++ exits) ++ [TraceItem.setState T] ++ (obsN ++ entries) ∧
      sys2.me = { sys.me with pState__ := some T, pLatestEvent := some entryEvt } ∧
      ObserverItems exitEvt sys.me.pState__ obsX ∧
      (∀ it ∈ exits, StateCallOf prog exitEvt sys.me.pState__ it) ∧
      WalkShape prog L sys.me.pState__ (exits.filterMap TraceItem.stepOf) ∧
      ObserverItems entryEvt (some T) obsN ∧
      (∀ it ∈ entries, StateCallOf prog entryEvt (some T) it) ∧
      entries.filterMap TraceItem.stateOf = (below L cT).reverse := by
  obtain ⟨L, hL⟩ := lcs_total prog fuel sys.me.pState__ (some T) cS cT hS hlS hT hlT
  obtain ⟨sys1, obsX, exits, hp1, htr1, _, hfr1, hobs1, hit1, hw1⟩ :=
    pass_asc prog fuel exitEvt L sys cS hS hlS
  obtain ⟨hd1, hme1⟩ := dispatch_frozen prog fuel depth sys sys1 exitEvt L false
    (Or.inr rfl) hpend hp1 hfr1
  obtain ⟨sys2, obsN, entries, hp2, htr2, hfr2, hobs2, hit2, hst2⟩ :=
    pass_desc prog fuel entryEvt L
      { sys1 with
        me := { sys1.me with pState__ := some T }
        trace := sys1.trace ++ [TraceItem.setState T] } cT hT hlT hfit
  obtain ⟨hd2, hme2⟩ := dispatch_frozen prog fuel depth _ sys2 entryEvt L true
    (Or.inl rfl) (by simp only; rw [hme1]; exact hpend) hp2 hfr2
  refine ⟨L, sys2, obsX, exits, obsN, entries, hL, ?_, ?_, ?_, hobs1, hit1, hw1, hobs2, hit2,
    hst2⟩
  · simp only [transitionWith, hL, hd1, hd2]
  · rw [htr2]
    simp only
    rw [htr1]
    simp
  · rw [hme2]
    simp only
    rw [hme1]

theorem HSM_Dispatch_unfold {W : Type} (prog : Program W) (f : Nat) (sys : Sys W)
    (e : HSM_Event) :
    HSM_Dispatch prog (f + 2) sys e =
      match dispatchPass prog (f + 2) sys e none false with
      | .error err => .error err
      | .ok sys1 =>
        match sys1.me.pTransitionTarget with
        | none => .ok sys1
        | some T =>
          transitionWith prog (f + 2) (__Dispatch prog (f + 2) (f + 1))
            { sys1 with me := { sys1.me with pTransitionTarget := none } } T := by
  simp only [HSM_Dispatch, __Dispatch]

/-! ## Reading traces -/

theorem invokedWith_append (sig : HSM_Signal) (a b : List TraceItem) :
    invokedWith sig (a ++ b) = invokedWith sig a ++ invokedWith sig b := by
  simp [invokedWith, List.filterMap_append]

theorem invokedWith_setState (sig : HSM_Signal) (t : StatePtr) :
    invokedWith sig [TraceItem.setState t] = [] := by
  simp [invokedWith]

theorem invokedWith_observer (sig : HSM_Signal) (e : HSM_Event) (a : Option StatePtr)
    (obs : List TraceItem) (h : ObserverItems e a obs) : invokedWith sig obs = [] := by
  rcases h with h | ⟨m, r, h, _⟩ <;> simp [h, invokedWith]

theorem stateOf_eq_stepOf (tr : List TraceItem) :
    tr.filterMap TraceItem.stateOf = (tr.filterMap TraceItem.stepOf).map Prod.fst := by
  induction tr with
  | nil => rfl
  | cons it tr ih =>
    cases it with
    | setState t => simpa [TraceItem.stateOf, TraceItem.stepOf] using ih
    | call cl e m r =>
      cases cl with
      | observer => simpa [TraceItem.stateOf, TraceItem.stepOf] using ih
      | state s => simp [TraceItem.stateOf, TraceItem.stepOf, ih]

theorem invokedWith_stateCalls {W : Type} (prog : Program W) (sig : HSM_Signal)
    (e : HSM_Event) (a : Option StatePtr) (tr : List TraceItem)
    (h : ∀ it ∈ tr, StateCallOf prog e a it) (hsig : e.sig = sig) :
    invokedWith sig tr = tr.filterMap TraceItem.stateOf := by
  induction tr with
  | nil => rfl
  | cons it tr ih =>
    obtain ⟨s, m, r, w, hit, _, _⟩ := h it (by simp)
    have := ih (fun x hx => h x (List.mem_cons_of_mem _ hx))
    simp only [invokedWith] at this
    simp [invokedWith, hit, hsig, TraceItem.stateOf, this]

theorem invokedWith_other {W : Type} (prog : Program W) (sig : HSM_Signal)
    (e : HSM_Event) (a : Option StatePtr) (tr : List TraceItem)
    (h : ∀ it ∈ tr, StateCallOf prog e a it) (hsig : e.sig ≠ sig) :
    invokedWith sig tr = [] := by
  induction tr with
  | nil => rfl
  | cons it tr ih =>
    obtain ⟨s, m, r, w, hit, _, _⟩ := h it (by simp)
    have := ih (fun x hx => h x (List.mem_cons_of_mem _ hx))
    simp only [invokedWith] at this
    simp [invokedWith, hit, hsig, this]

theorem steps_continue {W : Type} (prog : Program W) (e : HSM_Event) (a : Option StatePtr)
    (tr : List TraceItem) (h : ∀ it ∈ tr, StateCallOf prog e a it)
    (hcont : ∀ s w m, (prog.fn (prog.state s).handlerFn w m e).retVal = HSM_CONTINUE) :
    ∀ x ∈ tr.filterMap TraceItem.stepOf, x.2 = HSM_CONTINUE := by
  intro x hx
  obtain ⟨it, hit, hstep⟩ := List.mem_filterMap.mp hx
  obtain ⟨s, m, r, w, heq, _, hr⟩ := h it hit
  subst heq
  simp only [TraceItem.stepOf, Option.some.injEq] at hstep
  subst hstep
  simp only
  rw [hr]
  exact hcont s w m

theorem callOf_of_stateCall {W : Type} (prog : Program W) (e : HSM_Event)
    (a : Option StatePtr) (tr : List TraceItem) (h : ∀ it ∈ tr, StateCallOf prog e a it) :
    ∀ it ∈ tr, CallOf e a it := by
  intro it hit
  obtain ⟨s, m, r, _, heq, hm, _⟩ := h it hit
  exact ⟨_, m, r, heq, hm⟩

theorem callOf_of_observer (e : HSM_Event) (a : Option StatePtr) (obs : List TraceItem)
    (h : ObserverItems e a obs) : ∀ it ∈ obs, CallOf e a it := by
  intro it hit
  rcases h with h | ⟨m, r, h, hm⟩
  · rw [h] at hit; simp at hit
  · rw [h] at hit
    rw [List.mem_singleton.mp hit]
    exact ⟨_, m, r, rfl, hm⟩

theorem callOf_append (e : HSM_Event) (a : Option StatePtr) (x y : List TraceItem)
    (hx : ∀ it ∈ x, CallOf e a it) (hy : ∀ it ∈ y, CallOf e a it) :
    ∀ it ∈ x ++ y, CallOf e a it := by
  intro it hit
  rcases List.mem_append.mp hit with h | h
  · exact hx it h
  · exact hy it h

theorem no_setState_of_calls (e : HSM_Event) (a : Option StatePtr) (tr : List TraceItem)
    (h : ∀ it ∈ tr, CallOf e a it) : tr.filter TraceItem.isSetState = [] := by
  rw [List.filter_eq_nil_iff]
  intro it hit
  obtain ⟨cl, m, r, heq, _⟩ := h it hit
  simp [heq, TraceItem.isSetState]

/-- A dispatch on a well-formed tree whose pass ends with the pending target `T`
returns after one transition to `T`. -/
theorem dispatch_transition {W : Type} (prog : Program W) (fuel : Nat) (sys sys1 : Sys W)
    (e : HSM_Event) (T : StatePtr)
    (hwf : WellFormed prog) (hfuel : HSM_MAX_HIERARCHY_DEPTH < fuel)
    (hpass : dispatchPass prog fuel sys e none false = .ok sys1)
    (hT : sys1.me.pTransitionTarget = some T) :
    ∃ L sys2 cS cT obs items obsX exits obsN entries,
      __lowestCommonSuperstate prog fuel sys.me.pState__ (some T) = .ok L ∧
      HSM_Dispatch prog fuel sys e = .ok sys2 ∧
      superChain prog HSM_MAX_HIERARCHY_DEPTH sys.me.pState__ = some cS ∧
      superChain prog HSM_MAX_HIERARCHY_DEPTH (some T) = some cT ∧
      IsChain prog sys.me.pState__ cS ∧ IsChain prog (some T) cT ∧
      sys1.trace = sys.trace ++ obs ++ items ∧
      sys2.trace = sys1.trace ++ (obsX ++ exits) ++ [TraceItem.setState T] ++ (obsN ++ entries) ∧
      sys2.me = { sys1.me with
        pState__ := some T, pTransitionTarget := none, pLatestEvent := some entryEvt } ∧
      ObserverItems e sys.me.pState__ obs ∧
      (∀ it ∈ items, StateCallOf prog e sys.me.pState__ it) ∧
      ObserverItems exitEvt sys.me.pState__ obsX ∧
      (∀ it ∈ exits, StateCallOf prog exitEvt sys.me.pState__ it) ∧
      WalkShape prog L sys.me.pState__ (exits.filterMap TraceItem.stepOf) ∧
      ObserverItems entryEvt (some T) obsN ∧
      (∀ it ∈ entries, StateCallOf prog entryEvt (some T) it) ∧
      entries.filterMap TraceItem.stateOf = (below L cT).reverse := by
  obtain ⟨cS, hcS, hlS, hsS⟩ := wellFormed_chain prog hwf sys.me.pState__
  obtain ⟨cT, hcT, hlT, hsT⟩ := wellFormed_chain prog hwf (some T)
  obtain ⟨sys1a, obs, items, hp, htr, _, hfr, hobs, hit, _⟩ :=
    pass_asc prog fuel e none sys cS hcS (by omega)
  rw [hpass] at hp
  have hsys : sys1 = sys1a := by simpa using hp
  subst hsys
  have hact : sys1.me.pState__ = sys.me.pState__ := hfr.1
  obtain ⟨f, rfl⟩ : ∃ f, fuel = f + 2 := ⟨fuel - 2, by unfold HSM_MAX_HIERARCHY_DEPTH at hfuel; omega⟩
  obtain ⟨L, sys2, obsX, exits, obsN, entries, hL, hrun, htr2, hme2, hoX, hiX, hwX, hoN, hiN,
      hsN⟩ :=
    transition_run prog (f + 2) f
      { sys1 with me := { sys1.me with pTransitionTarget := none } } T cS cT
      (by simp only; rw [hact]; exact hcS) (by omega) hcT (by omega) hlT rfl
  simp only at hL hrun htr2 hme2 hoX hiX hwX
  rw [hact] at hL hoX hiX hwX
  refine ⟨L, sys2, cS, cT, obs, items, obsX, exits, obsN, entries, hL, ?_, hsS, hsT, hcS, hcT,
    htr, htr2, hme2, hobs, hit, hoX, hiX, hwX, hoN, hiN, hsN⟩
  rw [HSM_Dispatch_unfold, hpass]
  simp only [hT]
  exact hrun

theorem invokedWith_transition (sig : HSM_Signal)
    (S : Option StatePtr) (T : StatePtr) (obsX exits obsN entries : List TraceItem)
    (hoX : ObserverItems exitEvt S obsX) (hoN : ObserverItems entryEvt (some T) obsN) :
    invokedWith sig ((obsX ++ exits) ++ [TraceItem.setState T] ++ (obsN ++ entries)) =
      invokedWith sig exits ++ invokedWith sig entries := by
  simp only [invokedWith_append, invokedWith_setState, invokedWith_observer sig _ _ _ hoX,
    invokedWith_observer sig _ _ _ hoN, List.nil_append, List.append_nil]

theorem below_nodup {W : Type} (prog : Program W) (stop cur : Option StatePtr)
    (c : List StatePtr) (hc : IsChain prog cur c) : (below stop c).Nodup :=
  (List.takeWhile_sublist _).nodup (isChain_nodup prog c cur hc)

theorem stateCalls_nil_of_steps_nil {W : Type} (prog : Program W) (e : HSM_Event)
    (a : Option StatePtr) (tr : List TraceItem) (h : ∀ it ∈ tr, StateCallOf prog e a it)
    (hnil : tr.filterMap TraceItem.stepOf = []) : tr = [] := by
  cases tr with
  | nil => rfl
  | cons it tr =>
    obtain ⟨s, m, r, _, heq, _, _⟩ := h it (by simp)
    simp [heq, TraceItem.stepOf] at hnil

theorem stateOf_observer (e : HSM_Event) (a : Option StatePtr) (obs : List TraceItem)
    (h : ObserverItems e a obs) : ∀ it ∈ obs, it.stateOf = none := by
  intro it hit
  rcases h with h | ⟨m, r, h, _⟩
  · rw [h] at hit; simp at hit
  · rw [h] at hit
    rw [List.mem_singleton.mp hit]
    rfl

theorem invokedWith_nil_of_stateOf (sig : HSM_Signal) (tr : List TraceItem)
    (h : ∀ it ∈ tr, it.stateOf = none) : invokedWith sig tr = [] := by
  induction tr with
  | nil => rfl
  | cons it tr ih =>
    have h1 := h it (by simp)
    have h2 := ih (fun x hx => h x (List.mem_cons_of_mem _ hx))
    simp only [invokedWith] at h2
    cases it with
    | setState t => simp [invokedWith, h2]
    | call cl e m r =>
      cases cl with
      | observer => simp [invokedWith, h2]
      | state s => simp [TraceItem.stateOf] at h1

theorem ancestors_eq {W : Type} (prog : Program W) (s : StatePtr) (c2 : List StatePtr)
    (hc : IsChain prog (prog.state s).superState c2)
    (hl : c2.length ≤ HSM_MAX_HIERARCHY_DEPTH) : ancestors prog s = c2 := by
  unfold ancestors
  rw [superChain_of_isChain prog c2 _ _ hc hl]
  rfl

theorem step_of_call_mem (e : HSM_Event) (a : Option StatePtr) (obs items : List TraceItem)
    (hobs : ObserverItems e a obs) (s : StatePtr) (e2 : HSM_Event) (m : HSM_Fsm)
    (r : HSM_return_t)
    (hmem : TraceItem.call (Callee.state s) e2 m r ∈ obs ++ items) :
    (s, r) ∈ items.filterMap TraceItem.stepOf := by
  rcases List.mem_append.mp hmem with h | h
  · rcases hobs with h0 | ⟨m0, r0, h0, _⟩
    · rw [h0] at h; simp at h
    · rw [h0] at h; simp at h
  · exact List.mem_filterMap.mpr ⟨_, h, rfl⟩

theorem split_after_observer (e : HSM_Event) (a : Option StatePtr)
    (obs items pre post : List TraceItem) (hobs : ObserverItems e a obs) (s : StatePtr)
    (e2 : HSM_Event) (m : HSM_Fsm) (r : HSM_return_t)
    (h : obs ++ items = pre ++ TraceItem.call (Callee.state s) e2 m r :: post) :
    ∃ pre2, items = pre2 ++ TraceItem.call (Callee.state s) e2 m r :: post := by
  rcases hobs with h0 | ⟨m0, r0, h0, _⟩
  · subst h0
    exact ⟨pre, by simpa using h⟩
  · subst h0
    cases pre with
    | nil => simp at h
    | cons x pre2 =>
      simp only [List.singleton_append, List.cons_append, List.cons.injEq] at h
      exact ⟨pre2, h.2⟩

theorem chain_apart (c1 c2 : List StatePtr) (s a : StatePtr)
    (hnd : (c1 ++ s :: c2).Nodup) (ha : a ∈ c2) : a ∉ c1 ∧ a ≠ s := by
  rw [List.nodup_append] at hnd
  obtain ⟨_, h2, h3⟩ := hnd
  constructor
  · intro h1
    exact h3 h1 (List.mem_cons_of_mem _ ha)
  · intro h1
    subst h1
    exact (List.nodup_cons.mp h2).1 ha

/-- On a well-formed tree an external dispatch returns once its pass has, and only
extends the trace of the pass. -/
theorem dispatch_returns {W : Type} (prog : Program W) (fuel : Nat) (sys sys1 : Sys W)
    (e : HSM_Event) (hwf : WellFormed prog) (hfuel : HSM_MAX_HIERARCHY_DEPTH < fuel)
    (hp : dispatchPass prog fuel sys e none false = .ok sys1) :
    ∃ sys2 rest, HSM_Dispatch prog fuel sys e = .ok sys2 ∧ sys2.trace = sys1.trace ++ rest := by
  cases hT : sys1.me.pTransitionTarget with
  | none =>
    obtain ⟨f, rfl⟩ : ∃ f, fuel = f + 2 :=
      ⟨fuel - 2, by unfold HSM_MAX_HIERARCHY_DEPTH at hfuel; omega⟩
    refine ⟨sys1, [], ?_, by simp⟩
    rw [HSM_Dispatch_unfold, hp]
    simp only [hT]
  | some T =>
    obtain ⟨_, sys2, _, _, _, _, obsX, exits, obsN, entries, _, hrun, _, _, _, _, _, htr2, _⟩ :=
      dispatch_transition prog fuel sys sys1 e T hwf hfuel hp hT
    exact ⟨sys2, (obsX ++ exits) ++ [TraceItem.setState T] ++ (obsN ++ entries), hrun,
      by rw [htr2]; simp⟩

theorem demoProg_exit_continue (requests always : List (Option StatePtr))
    (userRet : HSM_return_t) (s : StatePtr) (w : Unit) (m : HSM_Fsm) :
    ((demoProg requests always HSM_CONTINUE userRet).fn
      ((demoProg requests always HSM_CONTINUE userRet).state s).handlerFn w m exitEvt).retVal =
      HSM_CONTINUE := by
  simp only [demoProg]
  generalize (demoState s).handlerFn = f
  unfold demoFn
  split <;> simp [exitEvt, HSM_SIG_EXIT]

/-! ## The claims -/

/-- C1 (amended): on a well-formed tree, when a dispatch executes a transition from
the active state `S` to `T` and the handlers return `HSM_CONTINUE` for the exit
event, the dispatch returns and the states whose handlers are invoked with the
exit signal after the bubbling pass are exactly the ancestor chain of `S` below
`__lowestCommonSuperstate S T`, from `S` upwards, each state once. -/
theorem exit_sequence_when_exits_continue {W : Type} (prog : Program W) (fuel : Nat)
    (sys sys1 : Sys W) (e : HSM_Event) (S T : StatePtr)
    (hwf : WellFormed prog) (hfuel : HSM_MAX_HIERARCHY_DEPTH < fuel)
    (hS : sys.me.pState__ = some S)
    (hpass : dispatchPass prog fuel sys e none false = .ok sys1)
    (hT : sys1.me.pTransitionTarget = some T)
    (hcont : ∀ s w m, (prog.fn (prog.state s).handlerFn w m exitEvt).retVal = HSM_CONTINUE) :
    ∃ sys2 tr L c,
      HSM_Dispatch prog fuel sys e = .ok sys2 ∧ sys2.trace = sys1.trace ++ tr ∧
      __lowestCommonSuperstate prog fuel (some S) (some T) = .ok L ∧
      superChain prog HSM_MAX_HIERARCHY_DEPTH (some S) = some c ∧
      invokedWith HSM_SIG_EXIT tr = below L c ∧ (invokedWith HSM_SIG_EXIT tr).Nodup := by
  obtain ⟨L, sys2, cS, cT, obs, items, obsX, exits, obsN, entries, hL, hrun, hsS, _, hcS, _, _,
      htr2, _, _, _, hoX, hiX, hwX, hoN, hiN, _⟩ :=
    dispatch_transition prog fuel sys sys1 e T hwf hfuel hpass hT
  rw [hS] at hL hsS
  have hinv : invokedWith HSM_SIG_EXIT
      ((obsX ++ exits) ++ [TraceItem.setState T] ++ (obsN ++ entries)) = below L cS := by
    rw [invokedWith_transition HSM_SIG_EXIT _ T _ _ _ _ hoX hoN,
      invokedWith_other prog HSM_SIG_EXIT entryEvt _ entries hiN (by decide),
      invokedWith_stateCalls prog HSM_SIG_EXIT exitEvt _ exits hiX rfl, List.append_nil,
      stateOf_eq_stepOf]
    exact walk_all_continue prog L _ _ cS hcS hwX (steps_continue prog exitEvt _ exits hiX hcont)
  refine ⟨sys2, _, L, cS, hrun, ?_, hL, hsS, hinv, ?_⟩
  · rw [htr2]; simp
  · rw [hinv]
    exact below_nodup prog L _ cS hcS

/-- C1, witness: the concrete tree with active state `2`, whose handler requests a
transition to `4`; every handler returns `HSM_CONTINUE`. -/
theorem exit_sequence_when_exits_continue_witness :
    ∃ sys2 tr L c,
      HSM_Dispatch (demoProg [some 4] [] HSM_CONTINUE HSM_CONTINUE) 6 demoSys userEvt = .ok sys2 ∧
      sys2.trace = (passOf (demoProg [some 4] [] HSM_CONTINUE HSM_CONTINUE) 6 demoSys userEvt).trace ++ tr ∧
      __lowestCommonSuperstate (demoProg [some 4] [] HSM_CONTINUE HSM_CONTINUE) 6 (some 2) (some 4) = .ok L ∧
      superChain (demoProg [some 4] [] HSM_CONTINUE HSM_CONTINUE) HSM_MAX_HIERARCHY_DEPTH (some 2) = some c ∧
      invokedWith HSM_SIG_EXIT tr = below L c ∧ (invokedWith HSM_SIG_EXIT tr).Nodup :=
  exit_sequence_when_exits_continue (demoProg [some 4] [] HSM_CONTINUE HSM_CONTINUE) 6 demoSys (passOf (demoProg [some 4] [] HSM_CONTINUE HSM_CONTINUE) 6 demoSys userEvt) userEvt 2 4
    (demoProg_wellFormed _ _ _ _) (by decide) rfl rfl rfl (demoProg_exit_continue _ _ _)

/-- C1, counterexample: in the concrete tree with active state `2`, the handler of
`2` requests a transition to `4` and returns `HSM_SUPPRESS_SUPERSTATES` for the
exit event.  The lowest common superstate is `0`, the chain of `2` below it is
`[2, 1]`, yet only `2` is invoked with the exit signal. -/
theorem exit_sequence_cut_by_suppress :
    WellFormed (demoProg [some 4] [] HSM_SUPPRESS_SUPERSTATES HSM_CONTINUE) ∧
      demoSys.me.pState__ = some 2 ∧
      (machineOf (dispatchPass (demoProg [some 4] [] HSM_SUPPRESS_SUPERSTATES HSM_CONTINUE) 6
        demoSys userEvt none false)).map (fun m => m.pTransitionTarget) = some (some 4) ∧
      __lowestCommonSuperstate (demoProg [some 4] [] HSM_SUPPRESS_SUPERSTATES HSM_CONTINUE) 6
        (some 2) (some 4) = .ok (some 0) ∧
      superChain (demoProg [some 4] [] HSM_SUPPRESS_SUPERSTATES HSM_CONTINUE)
        HSM_MAX_HIERARCHY_DEPTH (some 2) = some [2, 1, 0] ∧
      below (some 0) [2, 1, 0] = [2, 1] ∧
      (traceOf (HSM_Dispatch (demoProg [some 4] [] HSM_SUPPRESS_SUPERSTATES HSM_CONTINUE) 6
        demoSys userEvt)).map (invokedWith HSM_SIG_EXIT) = some [2] ∧
      (machineOf (HSM_Dispatch (demoProg [some 4] [] HSM_SUPPRESS_SUPERSTATES HSM_CONTINUE) 6
        demoSys userEvt)).map (fun m => m.pState__) = some (some 4) :=
  ⟨demoProg_wellFormed _ _ _ _, rfl, rfl, rfl, rfl, rfl, rfl, rfl⟩

/-- C2: on a well-formed tree, when a dispatch executes a transition from the
active state `S` to `T`, then whatever the handlers do the dispatch returns and the
states whose handlers are invoked with the entry signal are exactly the ancestor
chain of `T` below `__lowestCommonSuperstate S T`, from the outermost down to `T`,
each state once. -/
theorem entry_sequence_of_transition {W : Type} (prog : Program W) (fuel : Nat)
    (sys sys1 : Sys W) (e : HSM_Event) (S T : StatePtr)
    (hwf : WellFormed prog) (hfuel : HSM_MAX_HIERARCHY_DEPTH < fuel)
    (hS : sys.me.pState__ = some S)
    (hpass : dispatchPass prog fuel sys e none false = .ok sys1)
    (hT : sys1.me.pTransitionTarget = some T) :
    ∃ sys2 tr L c,
      HSM_Dispatch prog fuel sys e = .ok sys2 ∧ sys2.trace = sys1.trace ++ tr ∧
      __lowestCommonSuperstate prog fuel (some S) (some T) = .ok L ∧
      superChain prog HSM_MAX_HIERARCHY_DEPTH (some T) = some c ∧
      invokedWith HSM_SIG_ENTRY tr = (below L c).reverse ∧
      (invokedWith HSM_SIG_ENTRY tr).Nodup := by
  obtain ⟨L, sys2, cS, cT, obs, items, obsX, exits, obsN, entries, hL, hrun, _, hsT, _, hcT, _,
      htr2, _, _, _, hoX, hiX, _, hoN, hiN, hsN⟩ :=
    dispatch_transition prog fuel sys sys1 e T hwf hfuel hpass hT
  rw [hS] at hL
  have hinv : invokedWith HSM_SIG_ENTRY
      ((obsX ++ exits) ++ [TraceItem.setState T] ++ (obsN ++ entries)) = (below L cT).reverse := by
    rw [invokedWith_transition HSM_SIG_ENTRY _ T _ _ _ _ hoX hoN,
      invokedWith_other prog HSM_SIG_ENTRY exitEvt _ exits hiX (by decide),
      invokedWith_stateCalls prog HSM_SIG_ENTRY entryEvt _ entries hiN rfl, List.nil_append]
    exact hsN
  refine ⟨sys2, _, L, cT, hrun, ?_, hL, hsT, hinv, ?_⟩
  · rw [htr2]; simp
  · rw [hinv]
    exact List.nodup_reverse.mpr (below_nodup prog L _ cT hcT)

/-- C2, witness: the concrete tree with active state `2`, whose handler requests a
transition to `3` (and keeps requesting during the passes). -/
theorem entry_sequence_of_transition_witness :
    ∃ sys2 tr L c,
      HSM_Dispatch (demoProg [some 4] [some 3] HSM_SUPPRESS_SUPERSTATES HSM_CONTINUE) 6 demoSys userEvt = .ok sys2 ∧
      sys2.trace = (passOf (demoProg [some 4] [some 3] HSM_SUPPRESS_SUPERSTATES HSM_CONTINUE) 6 demoSys userEvt).trace ++ tr ∧
      __lowestCommonSuperstate (demoProg [some 4] [some 3] HSM_SUPPRESS_SUPERSTATES HSM_CONTINUE) 6 (some 2) (some 3) = .ok L ∧
      superChain (demoProg [some 4] [some 3] HSM_SUPPRESS_SUPERSTATES HSM_CONTINUE) HSM_MAX_HIERARCHY_DEPTH (some 3) = some c ∧
      invokedWith HSM_SIG_ENTRY tr = (below L c).reverse ∧
      (invokedWith HSM_SIG_ENTRY tr).Nodup :=
  entry_sequence_of_transition (demoProg [some 4] [some 3] HSM_SUPPRESS_SUPERSTATES HSM_CONTINUE) 6 demoSys (passOf (demoProg [some 4] [some 3] HSM_SUPPRESS_SUPERSTATES HSM_CONTINUE) 6 demoSys userEvt) userEvt 2 3
    (demoProg_wellFormed _ _ _ _) (by decide) rfl rfl rfl

/-- C3 (amended): on a well-formed tree, when a dispatch executes a transition
whose target is the active state `S` itself, the lowest common superstate is `S`,
both passes stop before `S`, and the dispatch returns without invoking the handler
of any state after the bubbling pass: neither the exit nor the entry handler of `S`
runs, and `S` stays the active state. -/
theorem self_transition_invokes_no_state_handler {W : Type} (prog : Program W) (fuel : Nat)
    (sys sys1 : Sys W) (e : HSM_Event) (S : StatePtr)
    (hwf : WellFormed prog) (hfuel : HSM_MAX_HIERARCHY_DEPTH < fuel)
    (hS : sys.me.pState__ = some S)
    (hpass : dispatchPass prog fuel sys e none false = .ok sys1)
    (hT : sys1.me.pTransitionTarget = some S) :
    ∃ sys2 tr,
      HSM_Dispatch prog fuel sys e = .ok sys2 ∧ sys2.trace = sys1.trace ++ tr ∧
      __lowestCommonSuperstate prog fuel (some S) (some S) = .ok (some S) ∧
      (∀ it ∈ tr, it.stateOf = none) ∧
      invokedWith HSM_SIG_EXIT tr = [] ∧ invokedWith HSM_SIG_ENTRY tr = [] ∧
      sys2.me.pState__ = some S := by
  obtain ⟨L, sys2, cS, cT, obs, items, obsX, exits, obsN, entries, hL, hrun, _, _, _, hcT, _,
      htr2, hme, _, _, hoX, hiX, hwX, hoN, hiN, hsN⟩ :=
    dispatch_transition prog fuel sys sys1 e S hwf hfuel hpass hT
  rw [hS] at hL hwX
  have hself := lcs_self prog fuel S (by omega)
  have hLS : L = some S := by
    rw [hself] at hL
    simpa using hL.symm
  subst hLS
  have hexits : exits = [] := by
    apply stateCalls_nil_of_steps_nil prog exitEvt _ exits hiX
    cases hsteps : exits.filterMap TraceItem.stepOf with
    | nil => rfl
    | cons st rest =>
      rw [hsteps] at hwX
      obtain ⟨_, hne, _⟩ := hwX
      exact absurd rfl hne
  have hentries : entries = [] := by
    apply stateCalls_nil_of_steps_nil prog entryEvt _ entries hiN
    have hb : below (some S) cT = [] := by
      cases cT with
      | nil => rfl
      | cons p c1 =>
        obtain ⟨hp, _⟩ := hcT
        have : S = p := by simpa using hp
        subst this
        simp [below]
    rw [hb, stateOf_eq_stepOf] at hsN
    simpa using hsN
  subst hexits hentries
  have hnone : ∀ it ∈ (obsX ++ []) ++ [TraceItem.setState S] ++ (obsN ++ []),
      it.stateOf = none := by
    intro it hit
    simp only [List.append_nil, List.mem_append, List.mem_singleton] at hit
    rcases hit with (h | h) | h
    · exact stateOf_observer _ _ _ hoX it h
    · rw [h]; rfl
    · exact stateOf_observer _ _ _ hoN it h
  refine ⟨sys2, _, hrun, ?_, hself, hnone, invokedWith_nil_of_stateOf _ _ hnone,
    invokedWith_nil_of_stateOf _ _ hnone, ?_⟩
  · rw [htr2]; simp
  · rw [hme]

/-- C3, witness: the concrete tree with active state `2`, whose handler requests a
transition to `2`. -/
theorem self_transition_invokes_no_state_handler_witness :
    ∃ sys2 tr,
      HSM_Dispatch (demoProg [some 2] [] HSM_CONTINUE HSM_CONTINUE) 6 demoSys userEvt = .ok sys2 ∧
      sys2.trace = (passOf (demoProg [some 2] [] HSM_CONTINUE HSM_CONTINUE) 6 demoSys userEvt).trace ++ tr ∧
      __lowestCommonSuperstate (demoProg [some 2] [] HSM_CONTINUE HSM_CONTINUE) 6 (some 2) (some 2) = .ok (some 2) ∧
      (∀ it ∈ tr, it.stateOf = none) ∧
      invokedWith HSM_SIG_EXIT tr = [] ∧ invokedWith HSM_SIG_ENTRY tr = [] ∧
      sys2.me.pState__ = some 2 :=
  self_transition_invokes_no_state_handler (demoProg [some 2] [] HSM_CONTINUE HSM_CONTINUE) 6 demoSys (passOf (demoProg [some 2] [] HSM_CONTINUE HSM_CONTINUE) 6 demoSys userEvt)
    userEvt 2 (demoProg_wellFormed _ _ _ _) (by decide) rfl rfl rfl

/-- C3, counterexample: in the concrete tree with active state `2`, the handler of
`2` requests a transition to `2` itself.  The dispatch executes the transition, and
no handler is invoked with the exit or the entry signal: the handler of `2` sees
the application event only. -/
theorem self_transition_neither_exits_nor_enters :
    demoSys.me.pState__ = some 2 ∧
      (machineOf (dispatchPass (demoProg [some 2] [] HSM_CONTINUE HSM_CONTINUE) 6 demoSys userEvt none false)).map
        (fun m => m.pTransitionTarget) = some (some 2) ∧
      (traceOf (HSM_Dispatch (demoProg [some 2] [] HSM_CONTINUE HSM_CONTINUE) 6 demoSys userEvt)).map (invokedWith HSM_SIG_EXIT) =
        some [] ∧
      (traceOf (HSM_Dispatch (demoProg [some 2] [] HSM_CONTINUE HSM_CONTINUE) 6 demoSys userEvt)).map (invokedWith HSM_SIG_ENTRY) =
        some [] ∧
      (traceOf (HSM_Dispatch (demoProg [some 2] [] HSM_CONTINUE HSM_CONTINUE) 6 demoSys userEvt)).map (List.filterMap TraceItem.stateOf) =
        some [2, 1, 0] ∧
      (traceOf (HSM_Dispatch (demoProg [some 2] [] HSM_CONTINUE HSM_CONTINUE) 6 demoSys userEvt)).map (List.filter TraceItem.isSetState) =
        some [TraceItem.setState 2] :=
  ⟨rfl, rfl, rfl, rfl, rfl, rfl⟩

/-- C4, failing input: in the concrete tree with active state `2`, the handler of
`2` requests a transition to its sibling `3` and returns
`HSM_SUPPRESS_IMMEDIATE_SUPERSTATE` for the exit event.  The lowest common
superstate is `1`; the exit walk skips over it and invokes the handler of `0`, an
ancestor of `1` that stays active, with the exit signal. -/
theorem exit_skip_passes_boundary :
    WellFormed (demoProg [some 3] [] HSM_SUPPRESS_IMMEDIATE_SUPERSTATE HSM_CONTINUE) ∧
      demoSys.me.pState__ = some 2 ∧
      (machineOf (dispatchPass (demoProg [some 3] [] HSM_SUPPRESS_IMMEDIATE_SUPERSTATE
        HSM_CONTINUE) 6 demoSys userEvt none false)).map (fun m => m.pTransitionTarget) =
        some (some 3) ∧
      __lowestCommonSuperstate (demoProg [some 3] [] HSM_SUPPRESS_IMMEDIATE_SUPERSTATE
        HSM_CONTINUE) 6 (some 2) (some 3) = .ok (some 1) ∧
      ancestors (demoProg [some 3] [] HSM_SUPPRESS_IMMEDIATE_SUPERSTATE HSM_CONTINUE) 1 = [0] ∧
      (traceOf (HSM_Dispatch (demoProg [some 3] [] HSM_SUPPRESS_IMMEDIATE_SUPERSTATE
        HSM_CONTINUE) 6 demoSys userEvt)).map (invokedWith HSM_SIG_EXIT) = some [2, 0] ∧
      (traceOf (HSM_Dispatch (demoProg [some 3] [] HSM_SUPPRESS_IMMEDIATE_SUPERSTATE
        HSM_CONTINUE) 6 demoSys userEvt)).map (invokedWith HSM_SIG_ENTRY) = some [3] :=
  ⟨demoProg_wellFormed _ _ _ _, rfl, rfl, rfl, rfl, rfl, rfl⟩

/-- C5: on a well-formed tree, a dispatch of `e` that ends in a transition from `S`
to `T` returns, and its trace is: the invocations with `e`, each seeing the active
state `S`; then the invocations with the exit event, each seeing the active state
`S`; then the assignment of `T` to the active state; then the invocations with the
entry event, each seeing the active state `T`. -/
theorem transition_phases_ordered {W : Type} (prog : Program W) (fuel : Nat)
    (sys sys1 : Sys W) (e : HSM_Event) (S T : StatePtr)
    (hwf : WellFormed prog) (hfuel : HSM_MAX_HIERARCHY_DEPTH < fuel)
    (hS : sys.me.pState__ = some S)
    (hpass : dispatchPass prog fuel sys e none false = .ok sys1)
    (hT : sys1.me.pTransitionTarget = some T) :
    ∃ sys2 walk exits entries,
      HSM_Dispatch prog fuel sys e = .ok sys2 ∧
      sys1.trace = sys.trace ++ walk ∧
      sys2.trace = sys.trace ++ walk ++ exits ++ [TraceItem.setState T] ++ entries ∧
      (∀ it ∈ walk, CallOf e (some S) it) ∧
      (∀ it ∈ exits, CallOf exitEvt (some S) it) ∧
      (∀ it ∈ entries, CallOf entryEvt (some T) it) ∧
      sys2.me.pState__ = some T := by
  obtain ⟨L, sys2, cS, cT, obs, items, obsX, exits, obsN, entries, _, hrun, _, _, _, _, htr,
      htr2, hme, hobs, hit, hoX, hiX, _, hoN, hiN, _⟩ :=
    dispatch_transition prog fuel sys sys1 e T hwf hfuel hpass hT
  rw [hS] at hobs hit hoX hiX
  refine ⟨sys2, obs ++ items, obsX ++ exits, obsN ++ entries, hrun, ?_, ?_, ?_, ?_, ?_, ?_⟩
  · rw [htr]; simp
  · rw [htr2, htr]; simp
  · exact callOf_append _ _ _ _ (callOf_of_observer _ _ _ hobs)
      (callOf_of_stateCall prog _ _ _ hit)
  · exact callOf_append _ _ _ _ (callOf_of_observer _ _ _ hoX)
      (callOf_of_stateCall prog _ _ _ hiX)
  · exact callOf_append _ _ _ _ (callOf_of_observer _ _ _ hoN)
      (callOf_of_stateCall prog _ _ _ hiN)
  · rw [hme]

/-- C5, witness: the concrete tree, with a generic handler and a handler of state
`2` that both request transitions on every event, the last one on the application
event to state `3`. -/
theorem transition_phases_ordered_witness :
    (traceOf (HSM_Dispatch (demoProg [some 4] [some 3] HSM_SUPPRESS_SUPERSTATES HSM_CONTINUE) 6 demoSysObserved userEvt)).map List.length = some 9 ∧
      ∃ sys2 walk exits entries,
        HSM_Dispatch (demoProg [some 4] [some 3] HSM_SUPPRESS_SUPERSTATES HSM_CONTINUE) 6 demoSysObserved userEvt = .ok sys2 ∧
        (passOf (demoProg [some 4] [some 3] HSM_SUPPRESS_SUPERSTATES HSM_CONTINUE) 6 demoSysObserved userEvt).trace = demoSysObserved.trace ++ walk ∧
        sys2.trace =
          demoSysObserved.trace ++ walk ++ exits ++ [TraceItem.setState 3] ++ entries ∧
        (∀ it ∈ walk, CallOf userEvt (some 2) it) ∧
        (∀ it ∈ exits, CallOf exitEvt (some 2) it) ∧
        (∀ it ∈ entries, CallOf entryEvt (some 3) it) ∧
        sys2.me.pState__ = some 3 :=
  ⟨rfl, transition_phases_ordered (demoProg [some 4] [some 3] HSM_SUPPRESS_SUPERSTATES HSM_CONTINUE) 6 demoSysObserved
    (passOf (demoProg [some 4] [some 3] HSM_SUPPRESS_SUPERSTATES HSM_CONTINUE) 6 demoSysObserved userEvt) userEvt 2 3
    (demoProg_wellFormed _ _ _ _) (by decide) rfl rfl rfl⟩

/-- C6: on a well-formed tree every external dispatch returns, whatever the
handlers and the generic handler request; the active state is assigned at most
once in it, and no target is pending when it returns. -/
theorem at_most_one_transition {W : Type} (prog : Program W) (fuel : Nat) (sys : Sys W)
    (e : HSM_Event) (hwf : WellFormed prog) (hfuel : HSM_MAX_HIERARCHY_DEPTH < fuel) :
    ∃ sys2 tr,
      HSM_Dispatch prog fuel sys e = .ok sys2 ∧ sys2.trace = sys.trace ++ tr ∧
      (tr.filter TraceItem.isSetState).length ≤ 1 ∧ sys2.me.pTransitionTarget = none := by
  obtain ⟨cS, hcS, hlS, _⟩ := wellFormed_chain prog hwf sys.me.pState__
  obtain ⟨sys1, obs, items, hp, htr, _, _, hobs, hit, _⟩ :=
    pass_asc prog fuel e none sys cS hcS (by omega)
  have hwalk : (obs ++ items).filter TraceItem.isSetState = [] :=
    no_setState_of_calls e _ _ (callOf_append _ _ _ _ (callOf_of_observer _ _ _ hobs)
      (callOf_of_stateCall prog _ _ _ hit))
  cases hT : sys1.me.pTransitionTarget with
  | none =>
    obtain ⟨f, rfl⟩ : ∃ f, fuel = f + 2 :=
      ⟨fuel - 2, by unfold HSM_MAX_HIERARCHY_DEPTH at hfuel; omega⟩
    refine ⟨sys1, obs ++ items, ?_, ?_, ?_, hT⟩
    · rw [HSM_Dispatch_unfold, hp]
      simp only [hT]
    · rw [htr]; simp
    · rw [hwalk]; simp
  | some T =>
    obtain ⟨L, sys2, _, _, obs2, items2, obsX, exits, obsN, entries, _, hrun, _, _, _, _, _,
        htr2, hme, _, _, hoX, hiX, _, hoN, hiN, _⟩ :=
      dispatch_transition prog fuel sys sys1 e T hwf hfuel hp hT
    have hX : (obsX ++ exits).filter TraceItem.isSetState = [] :=
      no_setState_of_calls exitEvt _ _ (callOf_append _ _ _ _ (callOf_of_observer _ _ _ hoX)
        (callOf_of_stateCall prog _ _ _ hiX))
    have hN : (obsN ++ entries).filter TraceItem.isSetState = [] :=
      no_setState_of_calls entryEvt _ _ (callOf_append _ _ _ _ (callOf_of_observer _ _ _ hoN)
        (callOf_of_stateCall prog _ _ _ hiN))
    refine ⟨sys2, (obs ++ items) ++ (obsX ++ exits) ++ [TraceItem.setState T] ++
      (obsN ++ entries), hrun, ?_, ?_, ?_⟩
    · rw [htr2, htr]; simp
    · rw [List.filter_append, List.filter_append, List.filter_append, hwalk, hX, hN]
      simp [TraceItem.isSetState]
    · rw [hme]

/-- C6, witness: the concrete tree, with a generic handler and a handler of state
`2` that both request a transition on every event, the exit and entry events
included. -/
theorem at_most_one_transition_witness :
    (traceOf (HSM_Dispatch (demoProg [some 4] [some 3] HSM_SUPPRESS_SUPERSTATES HSM_CONTINUE) 6 demoSysObserved userEvt)).map
        (List.filter TraceItem.isSetState) = some [TraceItem.setState 3] ∧
      ∃ sys2 tr,
        HSM_Dispatch (demoProg [some 4] [some 3] HSM_SUPPRESS_SUPERSTATES HSM_CONTINUE) 6 demoSysObserved userEvt = .ok sys2 ∧
        sys2.trace = demoSysObserved.trace ++ tr ∧
        (tr.filter TraceItem.isSetState).length ≤ 1 ∧ sys2.me.pTransitionTarget = none :=
  ⟨rfl, at_most_one_transition (demoProg [some 4] [some 3] HSM_SUPPRESS_SUPERSTATES HSM_CONTINUE) 6 demoSysObserved userEvt (demoProg_wellFormed _ _ _ _)
    (by decide)⟩

/-- C7: on a well-formed tree, the bubbling pass of an external dispatch of `e`
returns (and so does the dispatch), and if in it the handler of a state `s` returns
`HSM_SUPPRESS_SUPERSTATES`, the handler of no ancestor of `s` is invoked with `e`
in that pass. -/
theorem suppress_superstates_stops_walk {W : Type} (prog : Program W) (fuel : Nat)
    (sys : Sys W) (e : HSM_Event)
    (hwf : WellFormed prog) (hfuel : HSM_MAX_HIERARCHY_DEPTH < fuel) :
    ∃ sys1 sys2 tr rest,
      dispatchPass prog fuel sys e none false = .ok sys1 ∧
      HSM_Dispatch prog fuel sys e = .ok sys2 ∧
      sys1.trace = sys.trace ++ tr ∧ sys2.trace = sys1.trace ++ rest ∧
      ∀ s m, TraceItem.call (Callee.state s) e m HSM_SUPPRESS_SUPERSTATES ∈ tr →
        ∀ a ∈ ancestors prog s, ∀ m2 r2, TraceItem.call (Callee.state a) e m2 r2 ∉ tr := by
  obtain ⟨c, hc, hlc, _⟩ := wellFormed_chain prog hwf sys.me.pState__
  obtain ⟨sys1, obs, items, hp, htr, _, _, hobs, hit, hw⟩ :=
    pass_asc prog fuel e none sys c hc (by omega)
  obtain ⟨sys2, rest, hrun, hrest⟩ := dispatch_returns prog fuel sys sys1 e hwf hfuel hp
  refine ⟨sys1, sys2, obs ++ items, rest, hp, hrun, by rw [htr]; simp, hrest, ?_⟩
  intro s m hmem a ha m2 r2 hmem2
  have hs := step_of_call_mem e _ obs items hobs s e m _ hmem
  have ha2 := step_of_call_mem e _ obs items hobs a e m2 r2 hmem2
  obtain ⟨pre, post, hsteps⟩ := List.append_of_mem hs
  rw [hsteps] at hw ha2
  obtain ⟨c1, c2, hcc, hpre, hch2, hws⟩ := walk_split prog none s _ post pre _ c hc hw
  have hpost : post = [] := hws.2.2
  subst hpost
  have hl2 : c2.length ≤ HSM_MAX_HIERARCHY_DEPTH := by
    have := congrArg List.length hcc
    simp at this
    omega
  rw [ancestors_eq prog s c2 hch2 hl2] at ha
  have hnd := isChain_nodup prog c _ hc
  rw [hcc] at hnd
  obtain ⟨h1, h2⟩ := chain_apart c1 c2 s a hnd ha
  rcases List.mem_append.mp ha2 with h | h
  · exact h1 (hpre _ h)
  · simp only [List.mem_singleton, Prod.mk.injEq] at h
    exact h2 h.1

/-- C7, witness: the concrete tree with active state `2`, whose handler returns
`HSM_SUPPRESS_SUPERSTATES` for the application event: the walk is that one call. -/
theorem suppress_superstates_stops_walk_witness :
    (traceOf (dispatchPass (demoProg [] [] HSM_CONTINUE HSM_SUPPRESS_SUPERSTATES) 6 demoSys userEvt none false)).map
        (List.filterMap TraceItem.stepOf) = some [(2, HSM_SUPPRESS_SUPERSTATES)] ∧
      ∃ sys1 sys2 tr rest,
        dispatchPass (demoProg [] [] HSM_CONTINUE HSM_SUPPRESS_SUPERSTATES) 6 demoSys userEvt none false = .ok sys1 ∧
        HSM_Dispatch (demoProg [] [] HSM_CONTINUE HSM_SUPPRESS_SUPERSTATES) 6 demoSys userEvt = .ok sys2 ∧
        sys1.trace = demoSys.trace ++ tr ∧ sys2.trace = sys1.trace ++ rest ∧
        ∀ s m, TraceItem.call (Callee.state s) userEvt m HSM_SUPPRESS_SUPERSTATES ∈ tr →
          ∀ a ∈ ancestors (demoProg [] [] HSM_CONTINUE HSM_SUPPRESS_SUPERSTATES) s, ∀ m2 r2,
            TraceItem.call (Callee.state a) userEvt m2 r2 ∉ tr :=
  ⟨rfl, suppress_superstates_stops_walk (demoProg [] [] HSM_CONTINUE HSM_SUPPRESS_SUPERSTATES) 6 demoSys userEvt (demoProg_wellFormed _ _ _ _)
    (by decide)⟩

/-- C8: on a well-formed tree, the bubbling pass of an external dispatch of `e`
returns (and so does the dispatch), and if in it the handler of a state `s` with
superstate `q` returns `HSM_SUPPRESS_IMMEDIATE_SUPERSTATE`, then the handler of
`q` is not invoked with `e` in that pass and, if `q` has a superstate `g`, the
next invocation after that of `s` is the invocation of the handler of `g`. -/
theorem suppress_immediate_skips_one_level {W : Type} (prog : Program W) (fuel : Nat)
    (sys : Sys W) (e : HSM_Event)
    (hwf : WellFormed prog) (hfuel : HSM_MAX_HIERARCHY_DEPTH < fuel) :
    ∃ sys1 sys2 tr rest,
      dispatchPass prog fuel sys e none false = .ok sys1 ∧
      HSM_Dispatch prog fuel sys e = .ok sys2 ∧
      sys1.trace = sys.trace ++ tr ∧ sys2.trace = sys1.trace ++ rest ∧
      ∀ pre post s m,
        tr = pre ++ TraceItem.call (Callee.state s) e m HSM_SUPPRESS_IMMEDIATE_SUPERSTATE :: post →
        ∀ q, (prog.state s).superState = some q →
          (∀ m2 r2, TraceItem.call (Callee.state q) e m2 r2 ∉ tr) ∧
          ∀ g, (prog.state q).superState = some g →
            ∃ m3 r3 post2, post = TraceItem.call (Callee.state g) e m3 r3 :: post2 := by
  obtain ⟨c, hc, hlc, _⟩ := wellFormed_chain prog hwf sys.me.pState__
  obtain ⟨sys1, obs, items, hp, htr, _, _, hobs, hit, hw⟩ :=
    pass_asc prog fuel e none sys c hc (by omega)
  obtain ⟨sys2, rest, hrun, hrest⟩ := dispatch_returns prog fuel sys sys1 e hwf hfuel hp
  refine ⟨sys1, sys2, obs ++ items, rest, hp, hrun, by rw [htr]; simp, hrest, ?_⟩
  intro pre post s m hsplit q hq
  obtain ⟨pre2, hitems⟩ := split_after_observer e _ obs items pre post hobs s e m _ hsplit
  have hsteps : items.filterMap TraceItem.stepOf =
      pre2.filterMap TraceItem.stepOf ++
        (s, HSM_SUPPRESS_IMMEDIATE_SUPERSTATE) :: post.filterMap TraceItem.stepOf := by
    rw [hitems]
    simp [List.filterMap_append, TraceItem.stepOf]
  rw [hsteps] at hw
  obtain ⟨c1, c2, hcc, hpre, hch2, hws⟩ := walk_split prog none s _ _ _ _ c hc hw
  have hwq : WalkShape prog none (prog.state q).superState (post.filterMap TraceItem.stepOf) := by
    have := hws.2.2
    simp only [hq] at this
    exact this
  rw [hq] at hch2
  cases c2 with
  | nil => simp [IsChain] at hch2
  | cons q1 c3 =>
    obtain ⟨hq1, hch3⟩ := hch2
    have hqq : q = q1 := by simpa using hq1
    subst hqq
    have hnd := isChain_nodup prog c _ hc
    rw [hcc] at hnd
    constructor
    · intro m2 r2 hmem2
      have ha2 := step_of_call_mem e _ obs items hobs q e m2 r2 hmem2
      rw [hsteps] at ha2
      obtain ⟨h1, h2⟩ := chain_apart c1 (q :: c3) s q hnd (by simp)
      have hnd2 : (q :: c3).Nodup := by
        rw [List.nodup_append] at hnd
        exact (List.nodup_cons.mp hnd.2.1).2
      rcases List.mem_append.mp ha2 with h | h
      · exact h1 (hpre _ h)
      · rcases List.mem_cons.mp h with h | h
        · simp only [Prod.mk.injEq] at h
          exact h2 h.1
        · have := walk_subset prog none _ _ c3 hch3 hwq _ h
          exact (List.nodup_cons.mp hnd2).1 this
    · intro g hg
      rw [hg] at hwq
      have hpostItems : ∀ it ∈ post, StateCallOf prog e sys.me.pState__ it := by
        intro it hmem
        apply hit
        rw [hitems]
        simp [hmem]
      cases post with
      | nil => simp [WalkShape] at hwq
      | cons it post2 =>
        obtain ⟨s3, m3, r3, _, heq, _, _⟩ := hpostItems it (by simp)
        subst heq
        simp only [List.filterMap_cons, TraceItem.stepOf] at hwq
        obtain ⟨hg3, _, _⟩ := hwq
        have : g = s3 := by simpa using hg3
        subst this
        exact ⟨m3, r3, post2, rfl⟩

/-- C8, witness: the concrete tree with active state `2`, whose handler returns
`HSM_SUPPRESS_IMMEDIATE_SUPERSTATE` for the application event: state `1` is skipped
and state `0` is invoked next. -/
theorem suppress_immediate_skips_one_level_witness :
    (traceOf (dispatchPass (demoProg [] [] HSM_CONTINUE HSM_SUPPRESS_IMMEDIATE_SUPERSTATE) 6 demoSys userEvt none false)).map
        (List.filterMap TraceItem.stepOf) =
        some [(2, HSM_SUPPRESS_IMMEDIATE_SUPERSTATE), (0, HSM_CONTINUE)] ∧
      ∃ sys1 sys2 tr rest,
        dispatchPass (demoProg [] [] HSM_CONTINUE HSM_SUPPRESS_IMMEDIATE_SUPERSTATE) 6 demoSys userEvt none false = .ok sys1 ∧
        HSM_Dispatch (demoProg [] [] HSM_CONTINUE HSM_SUPPRESS_IMMEDIATE_SUPERSTATE) 6 demoSys userEvt = .ok sys2 ∧
        sys1.trace = demoSys.trace ++ tr ∧ sys2.trace = sys1.trace ++ rest ∧
        ∀ pre post s m,
          tr = pre ++
            TraceItem.call (Callee.state s) userEvt m HSM_SUPPRESS_IMMEDIATE_SUPERSTATE :: post →
          ∀ q, ((demoProg [] [] HSM_CONTINUE HSM_SUPPRESS_IMMEDIATE_SUPERSTATE).state s).superState = some q →
            (∀ m2 r2, TraceItem.call (Callee.state q) userEvt m2 r2 ∉ tr) ∧
            ∀ g, ((demoProg [] [] HSM_CONTINUE HSM_SUPPRESS_IMMEDIATE_SUPERSTATE).state q).superState = some g →
              ∃ m3 r3 post2, post = TraceItem.call (Callee.state g) userEvt m3 r3 :: post2 :=
  ⟨rfl, suppress_immediate_skips_one_level (demoProg [] [] HSM_CONTINUE HSM_SUPPRESS_IMMEDIATE_SUPERSTATE) 6 demoSys userEvt (demoProg_wellFormed _ _ _ _)
    (by decide)⟩

/-- C9: a request made while the latest event is an entry or exit event leaves the
machine as it is, pending target included; so does any handler invocation at such
a moment, whatever the handler requests. -/
theorem request_during_entry_exit_ignored (me : HSM_Fsm) (target : Option StatePtr)
    (ev : HSM_Event) (hev : me.pLatestEvent = some ev)
    (hsig : ev.sig = HSM_SIG_ENTRY ∨ ev.sig = HSM_SIG_EXIT) :
    HSM_Transition me target = me ∧
      (HSM_Transition me target).pTransitionTarget = me.pTransitionTarget ∧
      (HSM_Transition me target).pState__ = me.pState__ ∧
      ∀ (W : Type) (prog : Program W) (callee : Callee) (f : FnPtr) (e : HSM_Event)
        (sys : Sys W), sys.me = me → (callHandler prog callee f e sys).2.me = me := by
  have hf : Frozen me := ⟨ev, hev, hsig⟩
  have h := HSM_Transition_frozen me target hf
  refine ⟨h, by rw [h], by rw [h], ?_⟩
  intro W prog callee f e sys hsys
  subst hsys
  exact (callHandler_spec prog callee f e sys).2.2.2.2.2 hf

/-- C9, witness: a request for state `3` while the exit event is being processed. -/
theorem request_during_entry_exit_ignored_witness :
    HSM_Transition
        { pState__ := some 2, pTransitionTarget := none, pLatestEvent := some exitEvt,
          fnGenericEvtHandler := none } (some 3) =
        { pState__ := some 2, pTransitionTarget := none, pLatestEvent := some exitEvt,
          fnGenericEvtHandler := none } ∧
      (HSM_Transition
        { pState__ := some 2, pTransitionTarget := none, pLatestEvent := some exitEvt,
          fnGenericEvtHandler := none } (some 3)).pTransitionTarget = none ∧
      (HSM_Transition
        { pState__ := some 2, pTransitionTarget := none, pLatestEvent := some exitEvt,
          fnGenericEvtHandler := none } (some 3)).pState__ = some 2 ∧
      ∀ (W : Type) (prog : Program W) (callee : Callee) (f : FnPtr) (e : HSM_Event)
        (sys : Sys W),
        sys.me =
          { pState__ := some 2, pTransitionTarget := none, pLatestEvent := some exitEvt,
            fnGenericEvtHandler := none } →
        (callHandler prog callee f e sys).2.me =
          { pState__ := some 2, pTransitionTarget := none, pLatestEvent := some exitEvt,
            fnGenericEvtHandler := none } :=
  request_during_entry_exit_ignored _ (some 3) exitEvt rfl (Or.inr rfl)

/-- C10 (amended): a request leaves the machine as it is exactly when no event has
been dispatched yet, or the latest event is an entry or exit event, or the target
is the one already pending; in every other case the target becomes the pending
one.  A request on a freshly constructed machine is ignored: no target becomes
pending and a later dispatch runs as if the request had not been made.  Once a
dispatch has returned, the latest event stays set: it is the event dispatched, or
the entry event when a transition was made. -/
theorem request_ignored_iff (me : HSM_Fsm) (target initialState : Option StatePtr)
    (fnGenericEvtHandler : Option FnPtr) :
    (HSM_Transition me target = me ↔
        (me.pLatestEvent = none ∨ Frozen me ∨ me.pTransitionTarget = target)) ∧
      (me.pLatestEvent ≠ none → ¬ Frozen me →
        (HSM_Transition me target).pTransitionTarget = target) ∧
      HSM_Transition (HSM_FsmCtor initialState fnGenericEvtHandler) target =
        HSM_FsmCtor initialState fnGenericEvtHandler ∧
      (HSM_Transition (HSM_FsmCtor initialState fnGenericEvtHandler) target).pTransitionTarget =
        none ∧
      (∀ (W : Type) (prog : Program W) (fuel : Nat) (sys : Sys W) (e : HSM_Event),
        HSM_Dispatch prog fuel
            { sys with
              me := HSM_Transition (HSM_FsmCtor initialState fnGenericEvtHandler) target } e =
          HSM_Dispatch prog fuel
            { sys with me := HSM_FsmCtor initialState fnGenericEvtHandler } e) ∧
      ∀ (W : Type) (prog : Program W) (fuel : Nat) (sys sys2 : Sys W) (e : HSM_Event),
        WellFormed prog → HSM_MAX_HIERARCHY_DEPTH < fuel →
        HSM_Dispatch prog fuel sys e = .ok sys2 →
        sys2.me.pLatestEvent = some e ∨ sys2.me.pLatestEvent = some entryEvt := by
  have hfrozen : ∀ ev, me.pLatestEvent = some ev →
      ¬ (ev.sig ≠ HSM_SIG_ENTRY ∧ ev.sig ≠ HSM_SIG_EXIT) → Frozen me := by
    intro ev hc h
    refine ⟨ev, hc, ?_⟩
    by_cases h1 : ev.sig = HSM_SIG_ENTRY
    · exact Or.inl h1
    · by_cases h2 : ev.sig = HSM_SIG_EXIT
      · exact Or.inr h2
      · exact absurd ⟨h1, h2⟩ h
  have hrecorded : ∀ ev, me.pLatestEvent = some ev →
      ev.sig ≠ HSM_SIG_ENTRY ∧ ev.sig ≠ HSM_SIG_EXIT →
      HSM_Transition me target = { me with pTransitionTarget := target } := by
    intro ev hc h
    simp [HSM_Transition, hc, h]
  refine ⟨?_, ?_, rfl, rfl, fun _ _ _ _ _ => rfl, ?_⟩
  · cases hc : me.pLatestEvent with
    | none => simp [HSM_Transition, hc]
    | some ev =>
      by_cases h : ev.sig ≠ HSM_SIG_ENTRY ∧ ev.sig ≠ HSM_SIG_EXIT
      · have hnf : ¬ Frozen me := by
          rintro ⟨ev2, h1, h2⟩
          rw [hc] at h1
          simp only [Option.some.injEq] at h1
          subst h1
          rcases h2 with h2 | h2
          · exact h.1 h2
          · exact h.2 h2
        rw [hrecorded ev hc h]
        constructor
        · intro heq
          right; right
          have := congrArg HSM_Fsm.pTransitionTarget heq
          exact this.symm
        · intro hor
          rcases hor with h1 | h1 | h1
          · simp at h1
          · exact absurd h1 hnf
          · rw [← h1]
      · have hfz : Frozen me := hfrozen ev hc h
        constructor
        · intro _
          exact Or.inr (Or.inl hfz)
        · intro _
          exact HSM_Transition_frozen me target hfz
  · intro hsome hnf
    cases hc : me.pLatestEvent with
    | none => exact absurd hc hsome
    | some ev =>
      by_cases h : ev.sig ≠ HSM_SIG_ENTRY ∧ ev.sig ≠ HSM_SIG_EXIT
      · rw [hrecorded ev hc h]
      · exact absurd (hfrozen ev hc h) hnf
  · intro W prog fuel sys sys2 e hwf hfuel hrun
    obtain ⟨c, hc, hlc, _⟩ := wellFormed_chain prog hwf sys.me.pState__
    obtain ⟨sys1, obs, items, hp, _, _, hfr, _⟩ :=
      pass_asc prog fuel e none sys c hc (by omega)
    cases hT : sys1.me.pTransitionTarget with
    | none =>
      obtain ⟨f, rfl⟩ : ∃ f, fuel = f + 2 :=
        ⟨fuel - 2, by unfold HSM_MAX_HIERARCHY_DEPTH at hfuel; omega⟩
      rw [HSM_Dispatch_unfold, hp] at hrun
      simp only [hT] at hrun
      have : sys1 = sys2 := by simpa using hrun
      subst this
      exact Or.inl hfr.2.1
    | some T =>
      obtain ⟨_, sys3, _, _, _, _, _, _, _, _, _, hrun3, _, _, _, _, _, _, hme, _⟩ :=
        dispatch_transition prog fuel sys sys1 e T hwf hfuel hp hT
      rw [hrun] at hrun3
      have : sys2 = sys3 := by simpa using hrun3
      subst this
      right
      rw [hme]

/-- C10, counterexample: the machine of the concrete tree is constructed, started
and given an application event; no handler requests anything and the dispatch
returns with active state `2`.  A request for `3` made then, between two dispatch
calls, is recorded, and the next dispatch makes `3` the active state. -/
theorem request_between_dispatches_recorded :
    ∃ sys0 sys1 sys2 sys3,
      HSM_FsmInit (demoProg [] [] HSM_CONTINUE HSM_CONTINUE) 6 demoSys = .ok sys0 ∧
      HSM_Dispatch (demoProg [] [] HSM_CONTINUE HSM_CONTINUE) 6 sys0 userEvt = .ok sys1 ∧
      sys1.me.pState__ = some 2 ∧ sys1.me.pTransitionTarget = none ∧
      sys1.me.pLatestEvent = some userEvt ∧
      (HSM_Transition sys1.me (some 3)).pTransitionTarget = some 3 ∧
      HSM_Dispatch (demoProg [] [] HSM_CONTINUE HSM_CONTINUE) 6
        { sys1 with me := HSM_Transition sys1.me (some 3) } userEvt = .ok sys2 ∧
      sys2.me.pState__ = some 3 ∧
      HSM_Dispatch (demoProg [] [] HSM_CONTINUE HSM_CONTINUE) 6 sys1 userEvt = .ok sys3 ∧
      sys3.me.pState__ = some 2 :=
  ⟨_, _, _, _, rfl, rfl, rfl, rfl, rfl, rfl, rfl, rfl, rfl, rfl⟩

/-! ## The lowest common superstate, the value -/

theorem lcsInner_spec {W : Type} (prog : Program W) (p1 : StatePtr) :
    ∀ (n : Nat) (cur : Option StatePtr) (c : List StatePtr),
      IsChain prog cur c → c.length < n → lcsInner prog p1 n cur = .ok (decide (p1 ∈ c)) := by
  intro n
  induction n with
  | zero => intro cur c _ h; omega
  | succ n ih =>
    intro cur c hc hn
    cases c with
    | nil =>
      simp only [IsChain] at hc
      subst hc
      simp [lcsInner]
    | cons p c1 =>
      obtain ⟨hp, hc1⟩ := hc
      subst hp
      by_cases h : p1 = p
      · simp [lcsInner, h]
      · have := ih _ c1 hc1 (by simpa using hn)
        simp [lcsInner, h, this]

theorem lcsOuter_spec {W : Type} (prog : Program W) (fuel : Nat) (state2 : Option StatePtr)
    (c2 : List StatePtr) (hc2 : IsChain prog state2 c2) (hl2 : c2.length < fuel) :
    ∀ (n : Nat) (cur : Option StatePtr) (c : List StatePtr),
      IsChain prog cur c → c.length < n →
      lcsOuter prog fuel state2 n cur = .ok (c.find? (fun p => decide (p ∈ c2))) := by
  intro n
  induction n with
  | zero => intro cur c _ h; omega
  | succ n ih =>
    intro cur c hc hn
    cases c with
    | nil =>
      simp only [IsChain] at hc
      subst hc
      simp [lcsOuter]
    | cons p c1 =>
      obtain ⟨hp, hc1⟩ := hc
      subst hp
      have hin := lcsInner_spec prog p fuel state2 c2 hc2 hl2
      by_cases h : p ∈ c2
      · simp [lcsOuter, hin, h]
      · have := ih _ c1 hc1 (by simpa using hn)
        simp [lcsOuter, hin, h, this]

theorem lcs_spec {W : Type} (prog : Program W) (fuel : Nat) (s1 s2 : Option StatePtr)
    (c1 c2 : List StatePtr) (h1 : IsChain prog s1 c1) (hl1 : c1.length < fuel)
    (h2 : IsChain prog s2 c2) (hl2 : c2.length < fuel) :
    __lowestCommonSuperstate prog fuel s1 s2 = .ok (c1.find? (fun p => decide (p ∈ c2))) :=
  lcsOuter_spec prog fuel s2 c2 h2 hl2 fuel s1 c1 h1 hl1

theorem isChain_tail {W : Type} (prog : Program W) (r : StatePtr) (c2 : List StatePtr) :
    ∀ (c1 : List StatePtr) (cur : Option StatePtr),
      IsChain prog cur (c1 ++ r :: c2) → IsChain prog (some r) (r :: c2) := by
  intro c1
  induction c1 with
  | nil =>
    intro cur h
    exact ⟨rfl, h.2⟩
  | cons p c1 ih =>
    intro cur h
    exact ih _ h.2

/-- The first state of a chain that lies on a second chain splits the first chain:
no state before it lies on the second chain. -/
theorem find_first_split (c2 : List StatePtr) :
    ∀ (c : List StatePtr) (r : StatePtr),
      c.find? (fun p => decide (p ∈ c2)) = some r →
      ∃ d1 d2, c = d1 ++ r :: d2 ∧ r ∈ c2 ∧ ∀ x ∈ d1, x ∉ c2 := by
  intro c
  induction c with
  | nil => intro r h; simp at h
  | cons p c ih =>
    intro r h
    by_cases hp : p ∈ c2
    · simp only [List.find?_cons, hp, decide_True, Option.some.injEq] at h
      subst h
      exact ⟨[], c, rfl, hp, by simp⟩
    · simp only [List.find?_cons, hp, decide_False] at h
      obtain ⟨d1, d2, hc, hr, hd⟩ := ih r h
      refine ⟨p :: d1, d2, by simp [hc], hr, ?_⟩
      intro x hx
      rcases List.mem_cons.mp hx with hx | hx
      · rw [hx]; exact hp
      · exact hd x hx

/-- Two states that lie on the chain of each other are the same state. -/
theorem chain_antisymm {W : Type} (prog : Program W) (r r2 : StatePtr)
    (c c2 : List StatePtr) (hc : IsChain prog (some r) c) (hc2 : IsChain prog (some r2) c2)
    (h1 : r2 ∈ c) (h2 : r ∈ c2) : r = r2 := by
  by_contra hne
  cases c with
  | nil => simp at h1
  | cons p d =>
    obtain ⟨hp, hd⟩ := hc
    have hpr : r = p := by simpa using hp
    subst hpr
    have hnd := isChain_nodup prog (r :: d) (some r) ⟨rfl, hd⟩
    rcases List.mem_cons.mp h1 with h | h
    · exact hne h.symm
    · obtain ⟨d1, d2, hsplit, hch⟩ := isChain_split prog d _ r2 hd h
      have hc2b : IsChain prog (some r2) (r2 :: d2) := ⟨rfl, hch⟩
      have heq := isChain_unique prog _ _ _ hc2 hc2b
      rw [heq] at h2
      rcases List.mem_cons.mp h2 with h3 | h3
      · exact hne h3
      · have : r ∈ d := by rw [hsplit]; simp [h3]
        exact (List.nodup_cons.mp hnd).1 this

/-- The first state of the chain of `a` that lies on the chain of `b` is the nearest
state common to the two chains. -/
theorem nearest_props {W : Type} (prog : Program W) (a : StatePtr)
    (ca cb : List StatePtr) (ha : IsChain prog (some a) ca) :
    (∀ r, ca.find? (fun p => decide (p ∈ cb)) = some r → r ∈ ca ∧ r ∈ cb ∧
        ∃ cr, IsChain prog (some r) cr ∧ ∀ x, x ∈ ca → x ∈ cb → x ∈ cr) ∧
      (ca.find? (fun p => decide (p ∈ cb)) = none ↔ ∀ x, x ∈ ca → x ∉ cb) ∧
      (a ∈ cb → ca.find? (fun p => decide (p ∈ cb)) = some a) := by
  refine ⟨?_, ?_, ?_⟩
  · intro r hr
    obtain ⟨d1, d2, hsplit, hrb, hd1⟩ := find_first_split cb ca r hr
    refine ⟨by rw [hsplit]; simp, hrb, r :: d2, ?_, ?_⟩
    · rw [hsplit] at ha
      exact isChain_tail prog r d2 d1 _ ha
    · intro x hxa hxb
      rw [hsplit] at hxa
      rcases List.mem_append.mp hxa with h | h
      · exact absurd hxb (hd1 x h)
      · exact h
  · rw [List.find?_eq_none]
    simp
  · intro hab
    cases ca with
    | nil => simp [IsChain] at ha
    | cons p d =>
      obtain ⟨hp, _⟩ := ha
      have hpa : a = p := by simpa using hp
      subst hpa
      simp [List.find?_cons, hab]

/-! ## The query `HSM_StateIsActive` -/

theorem stateIsActiveLoop_spec {W : Type} (prog : Program W) (s : StatePtr) :
    ∀ (n : Nat) (cur : Option StatePtr) (c : List StatePtr),
      IsChain prog cur c → c.length < n →
      stateIsActiveLoop prog (some s) n cur = .ok (decide (s ∈ c)) := by
  intro n
  induction n with
  | zero => intro cur c _ h; omega
  | succ n ih =>
    intro cur c hc hn
    cases c with
    | nil =>
      simp only [IsChain] at hc
      subst hc
      simp [stateIsActiveLoop]
    | cons p c1 =>
      obtain ⟨hp, hc1⟩ := hc
      subst hp
      by_cases h : p = s
      · simp [stateIsActiveLoop, h]
      · have := ih _ c1 hc1 (by simpa using hn)
        have hne : ¬ s = p := fun h2 => h h2.symm
        simp [stateIsActiveLoop, h, hne, this]

/-! ## The requests of a pass -/

theorem requests_live (requests : List (Option StatePtr)) :
    ∀ (me : HSM_Fsm) (ev : HSM_Event), me.pLatestEvent = some ev →
      ev.sig ≠ HSM_SIG_ENTRY → ev.sig ≠ HSM_SIG_EXIT →
      (requests.foldl HSM_Transition me).pTransitionTarget =
        requests.getLast?.getD me.pTransitionTarget := by
  induction requests with
  | nil => intro me ev _ _ _; rfl
  | cons t ts ih =>
    intro me ev hev h1 h2
    have hstep : HSM_Transition me t = { me with pTransitionTarget := t } := by
      simp [HSM_Transition, hev, h1, h2]
    simp only [List.foldl, hstep]
    rw [ih { me with pTransitionTarget := t } ev hev h1 h2, List.getLast?_cons]
    cases ts.getLast? <;> rfl

/-- An ascending walk that returns has logged the requests of its handlers, and
the machine it leaves is the machine it found after those requests. -/
theorem asc_requests {W : Type} (prog : Program W) (e : HSM_Event) (stop : Option StatePtr) :
    ∀ (n : Nat) (cur : Option StatePtr) (idx idx1 : Nat) (sys sys1 : Sys W),
      dispatchLoop prog e stop false n cur idx sys = .ok (sys1, idx1) →
      ∃ reqs, sys1.requested = sys.requested ++ reqs ∧
        sys1.me = reqs.foldl HSM_Transition sys.me ∧
        ((∀ f w m, (prog.fn f w m e).requests = []) → reqs = []) := by
  intro n
  induction n with
  | zero => intro cur idx idx1 sys sys1 h; simp [dispatchLoop] at h
  | succ n ih =>
    intro cur idx idx1 sys sys1 h
    cases cur with
    | none =>
      simp only [dispatchLoop, Except.ok.injEq, Prod.mk.injEq] at h
      obtain ⟨h1, _⟩ := h
      subst h1
      exact ⟨[], by simp, rfl, fun _ => rfl⟩
    | some p =>
      by_cases hstop : some p = stop
      · simp only [dispatchLoop, hstop, if_true, Except.ok.injEq, Prod.mk.injEq] at h
        obtain ⟨h1, _⟩ := h
        subst h1
        exact ⟨[], by simp, rfl, fun _ => rfl⟩
      · have hme : (callHandler prog (Callee.state p) (prog.state p).handlerFn e sys).2.me =
            (prog.fn (prog.state p).handlerFn sys.world sys.me e).requests.foldl
              HSM_Transition sys.me := rfl
        have hrq : (callHandler prog (Callee.state p) (prog.state p).handlerFn e sys).2.requested =
            sys.requested ++ (prog.fn (prog.state p).handlerFn sys.world sys.me e).requests := rfl
        have resume : ∀ nxt,
            dispatchLoop prog e stop false n nxt idx
              (callHandler prog (Callee.state p) (prog.state p).handlerFn e sys).2 =
              .ok (sys1, idx1) →
            ∃ reqs, sys1.requested = sys.requested ++ reqs ∧
              sys1.me = reqs.foldl HSM_Transition sys.me ∧
              ((∀ f w m, (prog.fn f w m e).requests = []) → reqs = []) := by
          intro nxt hrun
          obtain ⟨reqs2, hq2, hm2, hz2⟩ := ih nxt idx idx1 _ sys1 hrun
          refine ⟨(prog.fn (prog.state p).handlerFn sys.world sys.me e).requests ++ reqs2,
            ?_, ?_, ?_⟩
          · rw [hq2, hrq, List.append_assoc]
          · rw [hm2, hme, List.foldl_append]
          · intro hz
            rw [hz, hz2 hz]
            rfl
        simp only [dispatchLoop, hstop, if_false, Bool.false_eq_true] at h
        generalize hr : callHandler prog (Callee.state p) (prog.state p).handlerFn e sys = res
          at h hme hrq resume
        obtain ⟨ret, sysA⟩ := res
        cases ret with
        | HSM_SUPPRESS_SUPERSTATES =>
          simp only [Except.ok.injEq, Prod.mk.injEq] at h
          obtain ⟨h1, _⟩ := h
          subst h1
          refine ⟨_, hrq, hme, ?_⟩
          intro hz
          exact hz _ _ _
        | HSM_CONTINUE => exact resume _ h
        | HSM_SUPPRESS_IMMEDIATE_SUPERSTATE =>
          simp only at h
          cases hq : (prog.state p).superState with
          | none =>
            rw [hq] at h
            exact resume _ h
          | some q =>
            rw [hq] at h
            exact resume _ h

theorem prologue_requests {W : Type} (prog : Program W) (sys : Sys W) (e : HSM_Event) :
    ∃ reqs, (dispatchPrologue prog sys e).requested = sys.requested ++ reqs ∧
      (dispatchPrologue prog sys e).me =
        reqs.foldl HSM_Transition { sys.me with pLatestEvent := some e } ∧
      ((∀ f w m, (prog.fn f w m e).requests = []) → reqs = []) := by
  unfold dispatchPrologue
  simp only
  split
  · next f _ =>
    exact ⟨_, rfl, rfl, fun hz => hz _ _ _⟩
  · exact ⟨[], by simp, rfl, fun _ => rfl⟩

/-- An ascending pass that returns has logged the requests made during it, and
the machine it leaves is the machine it found, with the event recorded, after
those requests. -/
theorem pass_requests {W : Type} (prog : Program W) (fuel : Nat) (sys sys1 : Sys W)
    (e : HSM_Event) (stop : Option StatePtr)
    (hp : dispatchPass prog fuel sys e stop false = .ok sys1) :
    ∃ reqs, sys1.requested = sys.requested ++ reqs ∧
      sys1.me = reqs.foldl HSM_Transition { sys.me with pLatestEvent := some e } ∧
      ((∀ f w m, (prog.fn f w m e).requests = []) → reqs = []) := by
  obtain ⟨reqs0, hq0, hm0, hz0⟩ := prologue_requests prog sys e
  simp only [dispatchPass] at hp
  cases hloop : dispatchLoop prog e stop false fuel (dispatchPrologue prog sys e).me.pState__ 0
      (dispatchPrologue prog sys e) with
  | error f => rw [hloop] at hp; simp at hp
  | ok res =>
    obtain ⟨sys3, idx3⟩ := res
    rw [hloop] at hp
    simp only [Bool.false_eq_true, if_false, Except.ok.injEq] at hp
    subst hp
    obtain ⟨reqs1, hq1, hm1, hz1⟩ := asc_requests prog e stop fuel _ 0 idx3 _ sys3 hloop
    refine ⟨reqs0 ++ reqs1, ?_, ?_, ?_⟩
    · rw [hq1, hq0, List.append_assoc]
    · rw [hm1, hm0, List.foldl_append]
    · intro hz
      rw [hz0 hz, hz1 hz]
      rfl

/-! ## `HSM_FsmInit` -/

theorem below_none (c : List StatePtr) : below none c = c := by
  unfold below
  rw [List.takeWhile_eq_self_iff]
  intro x _
  simp

/-- Below the superstate of a state, the chain of the state has the state alone. -/
theorem below_super {W : Type} (prog : Program W) (X : StatePtr) (c : List StatePtr)
    (hc : IsChain prog (some X) c) : below (prog.state X).superState c = [X] := by
  have hnd := isChain_nodup prog c _ hc
  cases c with
  | nil => simp [IsChain] at hc
  | cons p c1 =>
    obtain ⟨hp, hc1⟩ := hc
    have hpx : X = p := by simpa using hp
    subst hpx
    have hX : X ∉ c1 := (List.nodup_cons.mp hnd).1
    cases c1 with
    | nil =>
      simp only [IsChain] at hc1
      simp [below, hc1]
    | cons q c2 =>
      obtain ⟨hq, _⟩ := hc1
      have hne : X ≠ q := by
        intro h
        exact hX (by simp [h])
      simp [below, hq, hne]

theorem callSig_stateCalls {W : Type} (prog : Program W) (e : HSM_Event)
    (a : Option StatePtr) (tr : List TraceItem) (h : ∀ it ∈ tr, StateCallOf prog e a it) :
    tr.filterMap TraceItem.callSig =
      (tr.filterMap TraceItem.stateOf).map (fun s => (s, e.sig)) := by
  induction tr with
  | nil => rfl
  | cons it tr ih =>
    obtain ⟨s, m, r, w, hit, _, _⟩ := h it (by simp)
    have := ih (fun x hx => h x (List.mem_cons_of_mem _ hx))
    simp [hit, TraceItem.callSig, TraceItem.stateOf, this]

theorem callSig_observer (e : HSM_Event) (a : Option StatePtr) (obs : List TraceItem)
    (h : ObserverItems e a obs) : obs.filterMap TraceItem.callSig = [] := by
  rcases h with h | ⟨m, r, h, _⟩ <;> simp [h, TraceItem.callSig]

/-- `HSM_FsmInit` on a chain that ends and fits the array, when the dispatch of the
init event leaves no pending target: it returns after the pass for the init event
and a descending pass for the entry event over the whole chain. -/
theorem init_run {W : Type} (prog : Program W) (fuel : Nat) (sys sys1 : Sys W)
    (X : StatePtr) (c : List StatePtr)
    (hfuel : HSM_MAX_HIERARCHY_DEPTH < fuel) (hX : sys.me.pState__ = some X)
    (hc : IsChain prog (some X) c) (hl : c.length ≤ HSM_MAX_HIERARCHY_DEPTH)
    (hinit : dispatchPass prog fuel sys initEvt (prog.state X).superState false = .ok sys1)
    (hquiet : sys1.me.pTransitionTarget = none) :
    ∃ sys2 obs items obsN entries,
      HSM_FsmInit prog fuel sys = .ok sys2 ∧
      sys1.trace = sys.trace ++ obs ++ items ∧
      sys2.trace = sys1.trace ++ obsN ++ entries ∧
      ObserverItems initEvt (some X) obs ∧
      (∀ it ∈ items, StateCallOf prog initEvt (some X) it) ∧
      WalkShape prog (prog.state X).superState (some X) (items.filterMap TraceItem.stepOf) ∧
      ObserverItems entryEvt (some X) obsN ∧
      (∀ it ∈ entries, StateCallOf prog entryEvt (some X) it) ∧
      entries.filterMap TraceItem.stateOf = c.reverse ∧
      sys2.me = { sys1.me with pLatestEvent := some entryEvt } ∧
      sys2.me.pState__ = some X := by
  have hcS : IsChain prog sys.me.pState__ c := by rw [hX]; exact hc
  obtain ⟨sys1a, obs, items, hp, htr, _, hfr, hobs, hit, hw⟩ :=
    pass_asc prog fuel initEvt (prog.state X).superState sys c hcS (by omega)
  rw [hinit] at hp
  have hsys : sys1 = sys1a := by simpa using hp
  subst hsys
  rw [hX] at hobs hit hw
  have hact : sys1.me.pState__ = some X := by rw [hfr.1]; exact hX
  have hc1 : IsChain prog sys1.me.pState__ c := by rw [hact]; exact hc
  obtain ⟨f, rfl⟩ : ∃ f, fuel = f + 2 :=
    ⟨fuel - 2, by unfold HSM_MAX_HIERARCHY_DEPTH at hfuel; omega⟩
  obtain ⟨sys2, obsN, entries, hp2, htr2, hfr2, hoN, hiN, hsN⟩ :=
    pass_desc prog (f + 2) entryEvt none sys1 c hc1 (by omega) hl
  obtain ⟨hd2, hme2⟩ := dispatch_frozen prog (f + 2) (f + 1) sys1 sys2 entryEvt none true
    (Or.inl rfl) hquiet hp2 hfr2
  rw [hact] at hoN hiN
  rw [below_none] at hsN
  refine ⟨sys2, obs, items, obsN, entries, ?_, htr, htr2, hobs, hit, hw, hoN, hiN, hsN, hme2, ?_⟩
  · simp only [HSM_FsmInit, hX, __Dispatch, hinit, hquiet]
    exact hd2
  · rw [hme2]
    exact hact

/-- A state with the superstate of `X` that is not `X` does not lie on the chain
of `X`. -/
theorem sibling_not_on_chain {W : Type} (prog : Program W) (X s : StatePtr)
    (c : List StatePtr) (hc : IsChain prog (some X) c) (hne : s ≠ X)
    (hsib : (prog.state s).superState = (prog.state X).superState) : s ∉ c := by
  intro hs
  cases c with
  | nil => simp at hs
  | cons p c1 =>
    obtain ⟨hp, hc1⟩ := hc
    have hpx : X = p := by simpa using hp
    subst hpx
    rcases List.mem_cons.mp hs with h | h
    · exact hne h
    · obtain ⟨d1, d2, hsplit, hch⟩ := isChain_split prog c1 _ s hc1 h
      rw [hsib] at hch
      have := isChain_unique prog _ _ _ hc1 hch
      have hlen := congrArg List.length hsplit
      rw [← this] at hlen
      simp at hlen
      omega

/-! ## The claims on the life cycle and the queries -/

/-- C11, failing input: the machine of the concrete tree is constructed with
initial state `2`, whose handler returns `HSM_SUPPRESS_IMMEDIATE_SUPERSTATE` for
the init event and requests nothing.  `HSM_FsmInit` invokes with the init signal
the handler of `2` and then the handler of `0`, an ancestor of `2`. -/
theorem init_skip_passes_boundary :
    WellFormed (demoProg [] [] HSM_CONTINUE HSM_SUPPRESS_IMMEDIATE_SUPERSTATE) ∧
      demoSys.me = HSM_FsmCtor (some 2) none ∧
      ancestors (demoProg [] [] HSM_CONTINUE HSM_SUPPRESS_IMMEDIATE_SUPERSTATE) 2 = [1, 0] ∧
      (traceOf (HSM_FsmInit (demoProg [] [] HSM_CONTINUE HSM_SUPPRESS_IMMEDIATE_SUPERSTATE) 6
        demoSys)).map (invokedWith HSM_SIG_INIT) = some [2, 0] ∧
      (traceOf (HSM_FsmInit (demoProg [] [] HSM_CONTINUE HSM_SUPPRESS_IMMEDIATE_SUPERSTATE) 6
        demoSys)).map (List.filterMap TraceItem.callSig) =
        some [(2, HSM_SIG_INIT), (0, HSM_SIG_INIT), (0, HSM_SIG_ENTRY), (1, HSM_SIG_ENTRY),
          (2, HSM_SIG_ENTRY)] :=
  ⟨demoProg_wellFormed _ _ _ _, rfl, rfl, rfl, rfl⟩

/-- C12 (amended): on a well-formed tree, when `HSM_FsmInit` runs on a freshly
constructed machine with initial state `X` and the dispatch of the init event
leaves no pending target (no transition is made during it), `HSM_FsmInit` returns,
`X` is still the active state, and the states whose handlers were invoked with the
entry signal are the ancestor chain of `X` from the root down to `X`: every state
on the chain exactly once. -/
theorem init_enters_chain_once {W : Type} (prog : Program W) (fuel : Nat) (sys sys1 : Sys W)
    (X : StatePtr) (fnGenericEvtHandler : Option FnPtr)
    (hwf : WellFormed prog) (hfuel : HSM_MAX_HIERARCHY_DEPTH < fuel)
    (hfresh : sys.me = HSM_FsmCtor (some X) fnGenericEvtHandler)
    (hinit : dispatchPass prog fuel sys initEvt (prog.state X).superState false = .ok sys1)
    (hquiet : sys1.me.pTransitionTarget = none) :
    ∃ sys2 tr c,
      HSM_FsmInit prog fuel sys = .ok sys2 ∧ sys2.trace = sys.trace ++ tr ∧
      sys2.me.pState__ = some X ∧
      superChain prog HSM_MAX_HIERARCHY_DEPTH (some X) = some c ∧
      invokedWith HSM_SIG_ENTRY tr = c.reverse ∧
      ∀ s ∈ c, (invokedWith HSM_SIG_ENTRY tr).count s = 1 := by
  have hX : sys.me.pState__ = some X := by rw [hfresh]; rfl
  obtain ⟨c, hc, hl, hsc⟩ := wellFormed_chain prog hwf (some X)
  obtain ⟨sys2, obs, items, obsN, entries, hrun, htr, htr2, hobs, hit, _, hoN, hiN, hsN, _,
      hact⟩ := init_run prog fuel sys sys1 X c hfuel hX hc hl hinit hquiet
  have hinv : invokedWith HSM_SIG_ENTRY (obs ++ items ++ obsN ++ entries) = c.reverse := by
    rw [invokedWith_append, invokedWith_append, invokedWith_append,
      invokedWith_observer HSM_SIG_ENTRY _ _ _ hobs,
      invokedWith_other prog HSM_SIG_ENTRY initEvt _ items hit (by decide),
      invokedWith_observer HSM_SIG_ENTRY _ _ _ hoN,
      invokedWith_stateCalls prog HSM_SIG_ENTRY entryEvt _ entries hiN rfl]
    simpa using hsN
  refine ⟨sys2, obs ++ items ++ obsN ++ entries, c, hrun, ?_, hact, hsc, hinv, ?_⟩
  · rw [htr2, htr]; simp
  · intro s hs
    rw [hinv]
    exact List.count_eq_one_of_mem (List.nodup_reverse.mpr (isChain_nodup prog c _ hc))
      (List.mem_reverse.mpr hs)

/-- C12, witness: the concrete tree with initial state `2`; no handler requests
anything. -/
theorem init_enters_chain_once_witness :
    (traceOf (HSM_FsmInit (demoProg [] [] HSM_CONTINUE HSM_CONTINUE) 6 demoSys)).map (invokedWith HSM_SIG_ENTRY) = some [0, 1, 2] ∧
      ∃ sys2 tr c,
        HSM_FsmInit (demoProg [] [] HSM_CONTINUE HSM_CONTINUE) 6 demoSys = .ok sys2 ∧ sys2.trace = demoSys.trace ++ tr ∧
        sys2.me.pState__ = some 2 ∧
        superChain (demoProg [] [] HSM_CONTINUE HSM_CONTINUE) HSM_MAX_HIERARCHY_DEPTH (some 2) = some c ∧
        invokedWith HSM_SIG_ENTRY tr = c.reverse ∧
        ∀ s ∈ c, (invokedWith HSM_SIG_ENTRY tr).count s = 1 :=
  ⟨rfl, init_enters_chain_once (demoProg [] [] HSM_CONTINUE HSM_CONTINUE) 6 demoSys
    (match dispatchPass (demoProg [] [] HSM_CONTINUE HSM_CONTINUE) 6 demoSys initEvt (some 1) false with
      | .ok s => s
      | .error _ => demoSys) 2 none
    (demoProg_wellFormed _ _ _ _) (by decide) rfl rfl rfl⟩

/-- C12, counterexample: the machine of the concrete tree is constructed with
initial state `2`, whose handler requests a transition to `3` on the init event.
`HSM_FsmInit` makes the transition, which enters `3`, and then enters the whole
chain of the active state `3`: the entry handler of `3` runs twice. -/
theorem init_with_transition_enters_twice :
    WellFormed (demoProg [some 3] [] HSM_CONTINUE HSM_CONTINUE) ∧ demoSys.me = HSM_FsmCtor (some 2) none ∧
      (machineOf (HSM_FsmInit (demoProg [some 3] [] HSM_CONTINUE HSM_CONTINUE) 6 demoSys)).map (fun m => m.pState__) = some (some 3) ∧
      superChain (demoProg [some 3] [] HSM_CONTINUE HSM_CONTINUE) HSM_MAX_HIERARCHY_DEPTH (some 3) = some [3, 1, 0] ∧
      (traceOf (HSM_FsmInit (demoProg [some 3] [] HSM_CONTINUE HSM_CONTINUE) 6 demoSys)).map (List.filterMap TraceItem.callSig) =
        some [(2, HSM_SIG_INIT), (2, HSM_SIG_EXIT), (3, HSM_SIG_ENTRY), (0, HSM_SIG_ENTRY),
          (1, HSM_SIG_ENTRY), (3, HSM_SIG_ENTRY)] ∧
      (traceOf (HSM_FsmInit (demoProg [some 3] [] HSM_CONTINUE HSM_CONTINUE) 6 demoSys)).map
        (fun tr => (invokedWith HSM_SIG_ENTRY tr).count 3) = some 2 :=
  ⟨demoProg_wellFormed _ _ _ _, rfl, rfl, rfl, rfl, rfl⟩

/-- C13 (amended): on a well-formed tree, after `HSM_FsmCtor` with initial state
`X` and `HSM_FsmInit`, when the dispatch of the init event leaves no pending target
(no transition is made during it), `HSM_StateIsActive` returns true for `X` and for
every ancestor of `X`, and false for every other state with the superstate of
`X`. -/
theorem init_active_states {W : Type} (prog : Program W) (fuel : Nat) (sys sys1 : Sys W)
    (X : StatePtr) (fnGenericEvtHandler : Option FnPtr)
    (hwf : WellFormed prog) (hfuel : HSM_MAX_HIERARCHY_DEPTH < fuel)
    (hfresh : sys.me = HSM_FsmCtor (some X) fnGenericEvtHandler)
    (hinit : dispatchPass prog fuel sys initEvt (prog.state X).superState false = .ok sys1)
    (hquiet : sys1.me.pTransitionTarget = none) :
    ∃ sys2,
      HSM_FsmInit prog fuel sys = .ok sys2 ∧
      HSM_StateIsActive prog fuel sys2.me (some X) = .ok true ∧
      (∀ a ∈ ancestors prog X, HSM_StateIsActive prog fuel sys2.me (some a) = .ok true) ∧
      ∀ s, s ≠ X → (prog.state s).superState = (prog.state X).superState →
        HSM_StateIsActive prog fuel sys2.me (some s) = .ok false := by
  have hX : sys.me.pState__ = some X := by rw [hfresh]; rfl
  obtain ⟨c, hc, hl, hsc⟩ := wellFormed_chain prog hwf (some X)
  obtain ⟨sys2, _, _, _, _, hrun, _, _, _, _, _, _, _, _, _, hact⟩ :=
    init_run prog fuel sys sys1 X c hfuel hX hc hl hinit hquiet
  have hval : ∀ s, HSM_StateIsActive prog fuel sys2.me (some s) = .ok (decide (s ∈ c)) := by
    intro s
    unfold HSM_StateIsActive
    rw [hact]
    exact stateIsActiveLoop_spec prog s fuel _ c hc (by omega)
  refine ⟨sys2, hrun, ?_, ?_, ?_⟩
  · rw [hval]
    cases c with
    | nil => simp [IsChain] at hc
    | cons p c1 =>
      have : X = p := by simpa using hc.1
      simp [this]
  · intro a ha
    rw [hval]
    cases c with
    | nil => simp [IsChain] at hc
    | cons p c1 =>
      obtain ⟨hp, hc1⟩ := hc
      have hpx : X = p := by simpa using hp
      subst hpx
      have hl1 : c1.length ≤ HSM_MAX_HIERARCHY_DEPTH := by
        simp at hl; omega
      rw [ancestors_eq prog X c1 hc1 hl1] at ha
      simp [ha]
  · intro s hne hsib
    rw [hval]
    have := sibling_not_on_chain prog X s c hc hne hsib
    simp [this]

/-- C13, witness: the concrete tree with initial state `2`; no handler requests
anything.  State `3` is the sibling of `2`. -/
theorem init_active_states_witness :
    HSM_StateIsActive (demoProg [] [] HSM_CONTINUE HSM_CONTINUE) 6 (initOf (demoProg [] [] HSM_CONTINUE HSM_CONTINUE) 6 demoSys).me (some 3) = .ok false ∧
      ∃ sys2,
        HSM_FsmInit (demoProg [] [] HSM_CONTINUE HSM_CONTINUE) 6 demoSys = .ok sys2 ∧
        HSM_StateIsActive (demoProg [] [] HSM_CONTINUE HSM_CONTINUE) 6 sys2.me (some 2) = .ok true ∧
        (∀ a ∈ ancestors (demoProg [] [] HSM_CONTINUE HSM_CONTINUE) 2, HSM_StateIsActive (demoProg [] [] HSM_CONTINUE HSM_CONTINUE) 6 sys2.me (some a) = .ok true) ∧
        ∀ s, s ≠ 2 → ((demoProg [] [] HSM_CONTINUE HSM_CONTINUE).state s).superState = ((demoProg [] [] HSM_CONTINUE HSM_CONTINUE).state 2).superState →
          HSM_StateIsActive (demoProg [] [] HSM_CONTINUE HSM_CONTINUE) 6 sys2.me (some s) = .ok false :=
  ⟨rfl, init_active_states (demoProg [] [] HSM_CONTINUE HSM_CONTINUE) 6 demoSys
    (match dispatchPass (demoProg [] [] HSM_CONTINUE HSM_CONTINUE) 6 demoSys initEvt (some 1) false with
      | .ok s => s
      | .error _ => demoSys) 2 none
    (demoProg_wellFormed _ _ _ _) (by decide) rfl rfl rfl⟩

/-- C13, counterexample: the machine of the concrete tree is constructed with
initial state `2`, whose handler requests a transition to its sibling `3` on the
init event.  After `HSM_FsmInit` the initial state `2` is not active and its
sibling `3` is. -/
theorem init_with_transition_leaves_initial_state :
    WellFormed (demoProg [some 3] [] HSM_CONTINUE HSM_CONTINUE) ∧ demoSys.me = HSM_FsmCtor (some 2) none ∧
      ((demoProg [some 3] [] HSM_CONTINUE HSM_CONTINUE).state 3).superState = ((demoProg [some 3] [] HSM_CONTINUE HSM_CONTINUE).state 2).superState ∧
      (machineOf (HSM_FsmInit (demoProg [some 3] [] HSM_CONTINUE HSM_CONTINUE) 6 demoSys)).map (fun m => m.pState__) = some (some 3) ∧
      HSM_StateIsActive (demoProg [some 3] [] HSM_CONTINUE HSM_CONTINUE) 6 (initOf (demoProg [some 3] [] HSM_CONTINUE HSM_CONTINUE) 6 demoSys).me (some 2) = .ok false ∧
      HSM_StateIsActive (demoProg [some 3] [] HSM_CONTINUE HSM_CONTINUE) 6 (initOf (demoProg [some 3] [] HSM_CONTINUE HSM_CONTINUE) 6 demoSys).me (some 3) = .ok true :=
  ⟨demoProg_wellFormed _ _ _ _, rfl, rfl, rfl, rfl, rfl⟩

theorem wellFormed_acyclic {W : Type} (prog : Program W) (hwf : WellFormed prog) :
    Acyclic prog := by
  intro s
  obtain ⟨c, hc, _, _⟩ := wellFormed_chain prog hwf (some s)
  exact ⟨c, hc⟩

theorem ancestorOrSelf_iff {W : Type} (prog : Program W) (x y : StatePtr)
    (c : List StatePtr) (hc : IsChain prog (some y) c) : ancestorOrSelf prog x y ↔ x ∈ c := by
  constructor
  · rintro ⟨d, hd, hx⟩
    rw [isChain_unique prog _ _ _ hc hd]
    exact hx
  · intro hx
    exact ⟨c, hc, hx⟩

theorem wellFormed_length {W : Type} (prog : Program W) (hwf : WellFormed prog)
    (cur : Option StatePtr) (c : List StatePtr) (hc : IsChain prog cur c) :
    c.length ≤ HSM_MAX_HIERARCHY_DEPTH := by
  obtain ⟨d, hd, hl, _⟩ := wellFormed_chain prog hwf cur
  rw [isChain_unique prog _ _ _ hc hd]
  exact hl

/-- C14: on an acyclic tree, with enough fuel for the chain of the active state,
`HSM_StateIsActive(me, s)` returns, leaves the system as it is, and returns true
if and only if `s` is the active state or one of its ancestors. -/
theorem state_is_active_iff {W : Type} (prog : Program W) (sys : Sys W) (s : StatePtr)
    (hac : Acyclic prog) :
    ∃ b N,
      (∀ fuel, N ≤ fuel → stateIsActiveCall prog fuel sys (some s) = .ok (b, sys)) ∧
      (∀ fuel, N ≤ fuel → HSM_StateIsActive prog fuel sys.me (some s) = .ok b) ∧
      (WellFormed prog → N ≤ HSM_MAX_HIERARCHY_DEPTH + 1) ∧
      (b = true ↔ ∃ a, sys.me.pState__ = some a ∧ ancestorOrSelf prog s a) := by
  have hchain : ∃ c, IsChain prog sys.me.pState__ c := by
    cases sys.me.pState__ with
    | none => exact ⟨[], rfl⟩
    | some a => exact hac a
  obtain ⟨c, hc⟩ := hchain
  have hval : ∀ fuel, c.length + 1 ≤ fuel →
      HSM_StateIsActive prog fuel sys.me (some s) = .ok (decide (s ∈ c)) := by
    intro fuel hf
    exact stateIsActiveLoop_spec prog s fuel _ c hc (by omega)
  refine ⟨decide (s ∈ c), c.length + 1, ?_, hval, ?_, ?_⟩
  · intro fuel hf
    simp only [stateIsActiveCall, hval fuel hf]
  · intro hwf
    have := wellFormed_length prog hwf _ c hc
    omega
  · rw [decide_eq_true_iff]
    constructor
    · intro hs
      cases hact : sys.me.pState__ with
      | none =>
        rw [hact] at hc
        cases c with
        | nil => simp at hs
        | cons p c1 => simp [IsChain] at hc
      | some a =>
        rw [hact] at hc
        exact ⟨a, rfl, c, hc, hs⟩
    · rintro ⟨a, hact, d, hd, hs⟩
      rw [hact] at hc
      rw [isChain_unique prog _ _ _ hc hd]
      exact hs

/-- C14, witness: the machine of the concrete tree with active state `2`; state
`1` is an ancestor of `2`, state `3` is not. -/
theorem state_is_active_iff_witness :
    HSM_StateIsActive (demoProg [] [] HSM_CONTINUE HSM_CONTINUE) 6 demoSys.me (some 1) = .ok true ∧
      HSM_StateIsActive (demoProg [] [] HSM_CONTINUE HSM_CONTINUE) 6 demoSys.me (some 3) = .ok false ∧
      ∃ b N,
        (∀ fuel, N ≤ fuel → stateIsActiveCall (demoProg [] [] HSM_CONTINUE HSM_CONTINUE) fuel demoSys (some 1) = .ok (b, demoSys)) ∧
        (∀ fuel, N ≤ fuel → HSM_StateIsActive (demoProg [] [] HSM_CONTINUE HSM_CONTINUE) fuel demoSys.me (some 1) = .ok b) ∧
        (WellFormed (demoProg [] [] HSM_CONTINUE HSM_CONTINUE) → N ≤ HSM_MAX_HIERARCHY_DEPTH + 1) ∧
        (b = true ↔ ∃ a, demoSys.me.pState__ = some a ∧ ancestorOrSelf (demoProg [] [] HSM_CONTINUE HSM_CONTINUE) 1 a) :=
  ⟨rfl, rfl, state_is_active_iff (demoProg [] [] HSM_CONTINUE HSM_CONTINUE) demoSys 1
    (wellFormed_acyclic _ (demoProg_wellFormed _ _ _ _))⟩

/-- C15: on an acyclic forest, with enough fuel for the two chains,
`__lowestCommonSuperstate(a, b)` returns the nearest common ancestor: a state it
returns is `a` or an ancestor of `a`, and `b` or an ancestor of `b`, and every state
that is both is that state or one of its ancestors; it returns none if and only if
there is no such state; and it returns `a` when `a` is `b` or an ancestor of `b`. -/
theorem lcs_is_nearest_common_ancestor {W : Type} (prog : Program W) (a b : StatePtr)
    (hac : Acyclic prog) :
    ∃ L N,
      (∀ fuel, N ≤ fuel → __lowestCommonSuperstate prog fuel (some a) (some b) = .ok L) ∧
      (WellFormed prog → N ≤ HSM_MAX_HIERARCHY_DEPTH + 1) ∧
      (∀ r, L = some r →
        ancestorOrSelf prog r a ∧ ancestorOrSelf prog r b ∧
        ∀ x, ancestorOrSelf prog x a → ancestorOrSelf prog x b → ancestorOrSelf prog x r) ∧
      (L = none ↔ ¬ ∃ x, ancestorOrSelf prog x a ∧ ancestorOrSelf prog x b) ∧
      (ancestorOrSelf prog a b → L = some a) := by
  obtain ⟨ca, ha⟩ := hac a
  obtain ⟨cb, hb⟩ := hac b
  obtain ⟨hnear, hnone, hself⟩ := nearest_props prog a ca cb ha
  refine ⟨ca.find? (fun p => decide (p ∈ cb)), max ca.length cb.length + 1, ?_, ?_, ?_, ?_, ?_⟩
  · intro fuel hf
    have h1 : ca.length ≤ max ca.length cb.length := le_max_left _ _
    have h2 : cb.length ≤ max ca.length cb.length := le_max_right _ _
    exact lcs_spec prog fuel _ _ ca cb ha (by omega) hb (by omega)
  · intro hwf
    have h1 := wellFormed_length prog hwf _ ca ha
    have h2 := wellFormed_length prog hwf _ cb hb
    have := max_le h1 h2
    omega
  · intro r hr
    obtain ⟨hra, hrb, cr, hcr, hall⟩ := hnear r hr
    refine ⟨⟨ca, ha, hra⟩, ⟨cb, hb, hrb⟩, ?_⟩
    intro x hxa hxb
    exact ⟨cr, hcr, hall x ((ancestorOrSelf_iff prog x a ca ha).mp hxa)
      ((ancestorOrSelf_iff prog x b cb hb).mp hxb)⟩
  · rw [hnone]
    constructor
    · rintro h ⟨x, hxa, hxb⟩
      exact h x ((ancestorOrSelf_iff prog x a ca ha).mp hxa)
        ((ancestorOrSelf_iff prog x b cb hb).mp hxb)
    · intro h x hxa hxb
      exact h ⟨x, ⟨ca, ha, hxa⟩, ⟨cb, hb, hxb⟩⟩
  · intro hab
    exact hself ((ancestorOrSelf_iff prog a b cb hb).mp hab)

/-- C15, witness: states `2` and `4` of the concrete tree; their nearest common
ancestor is the root `0`. -/
theorem lcs_is_nearest_common_ancestor_witness :
    __lowestCommonSuperstate (demoProg [] [] HSM_CONTINUE HSM_CONTINUE) 6 (some 2) (some 4) = .ok (some 0) ∧
      ∃ L N,
        (∀ fuel, N ≤ fuel → __lowestCommonSuperstate (demoProg [] [] HSM_CONTINUE HSM_CONTINUE) fuel (some 2) (some 4) = .ok L) ∧
        (WellFormed (demoProg [] [] HSM_CONTINUE HSM_CONTINUE) → N ≤ HSM_MAX_HIERARCHY_DEPTH + 1) ∧
        (∀ r, L = some r →
          ancestorOrSelf (demoProg [] [] HSM_CONTINUE HSM_CONTINUE) r 2 ∧ ancestorOrSelf (demoProg [] [] HSM_CONTINUE HSM_CONTINUE) r 4 ∧
          ∀ x, ancestorOrSelf (demoProg [] [] HSM_CONTINUE HSM_CONTINUE) x 2 → ancestorOrSelf (demoProg [] [] HSM_CONTINUE HSM_CONTINUE) x 4 → ancestorOrSelf (demoProg [] [] HSM_CONTINUE HSM_CONTINUE) x r) ∧
        (L = none ↔ ¬ ∃ x, ancestorOrSelf (demoProg [] [] HSM_CONTINUE HSM_CONTINUE) x 2 ∧ ancestorOrSelf (demoProg [] [] HSM_CONTINUE HSM_CONTINUE) x 4) ∧
        (ancestorOrSelf (demoProg [] [] HSM_CONTINUE HSM_CONTINUE) 2 4 → L = some 2) :=
  ⟨rfl, lcs_is_nearest_common_ancestor (demoProg [] [] HSM_CONTINUE HSM_CONTINUE) 2 4
    (wellFormed_acyclic _ (demoProg_wellFormed _ _ _ _))⟩

/-- C16: on an acyclic forest, with enough fuel for the two chains,
`__lowestCommonSuperstate(a, b)` and `__lowestCommonSuperstate(b, a)` return the
same result, a state or none. -/
theorem lcs_symmetric {W : Type} (prog : Program W) (a b : StatePtr) (hac : Acyclic prog) :
    ∃ L N,
      (WellFormed prog → N ≤ HSM_MAX_HIERARCHY_DEPTH + 1) ∧
      ∀ fuel, N ≤ fuel →
        __lowestCommonSuperstate prog fuel (some a) (some b) = .ok L ∧
        __lowestCommonSuperstate prog fuel (some b) (some a) = .ok L := by
  obtain ⟨ca, ha⟩ := hac a
  obtain ⟨cb, hb⟩ := hac b
  obtain ⟨hnear, hnone, _⟩ := nearest_props prog a ca cb ha
  obtain ⟨hnear2, hnone2, _⟩ := nearest_props prog b cb ca hb
  have hsym : cb.find? (fun p => decide (p ∈ ca)) = ca.find? (fun p => decide (p ∈ cb)) := by
    cases h1 : ca.find? (fun p => decide (p ∈ cb)) with
    | none =>
      rw [hnone2]
      intro x hxb hxa
      exact (hnone.mp h1) x hxa hxb
    | some r =>
      obtain ⟨hra, hrb, cr, hcr, hall⟩ := hnear r h1
      cases h2 : cb.find? (fun p => decide (p ∈ ca)) with
      | none => exact absurd hra ((hnone2.mp h2) r hrb)
      | some r2 =>
        obtain ⟨hr2b, hr2a, cr2, hcr2, hall2⟩ := hnear2 r2 h2
        have := chain_antisymm prog r r2 cr cr2 hcr hcr2 (hall r2 hr2a hr2b) (hall2 r hrb hra)
        rw [this]
  refine ⟨ca.find? (fun p => decide (p ∈ cb)), max ca.length cb.length + 1, ?_, ?_⟩
  · intro hwf
    have h1 := wellFormed_length prog hwf _ ca ha
    have h2 := wellFormed_length prog hwf _ cb hb
    have := max_le h1 h2
    omega
  · intro fuel hf
    have h1 : ca.length ≤ max ca.length cb.length := le_max_left _ _
    have h2 : cb.length ≤ max ca.length cb.length := le_max_right _ _
    refine ⟨lcs_spec prog fuel _ _ ca cb ha (by omega) hb (by omega), ?_⟩
    rw [← hsym]
    exact lcs_spec prog fuel _ _ cb ca hb (by omega) ha (by omega)

/-- C16, witness: states `2` and `4` of the concrete tree, in both orders. -/
theorem lcs_symmetric_witness :
    __lowestCommonSuperstate (demoProg [] [] HSM_CONTINUE HSM_CONTINUE) 6 (some 2) (some 4) = .ok (some 0) ∧
      __lowestCommonSuperstate (demoProg [] [] HSM_CONTINUE HSM_CONTINUE) 6 (some 4) (some 2) = .ok (some 0) ∧
      ∃ L N,
        (WellFormed (demoProg [] [] HSM_CONTINUE HSM_CONTINUE) → N ≤ HSM_MAX_HIERARCHY_DEPTH + 1) ∧
        ∀ fuel, N ≤ fuel →
          __lowestCommonSuperstate (demoProg [] [] HSM_CONTINUE HSM_CONTINUE) fuel (some 2) (some 4) = .ok L ∧
          __lowestCommonSuperstate (demoProg [] [] HSM_CONTINUE HSM_CONTINUE) fuel (some 4) (some 2) = .ok L :=
  ⟨rfl, rfl, lcs_symmetric (demoProg [] [] HSM_CONTINUE HSM_CONTINUE) 2 4 (wellFormed_acyclic _ (demoProg_wellFormed _ _ _ _))⟩

/-! ## The scenarios -/

/-- One iteration of the ascending walk in which the handler returns
`HSM_CONTINUE`. -/
theorem loop_step_continue {W : Type} (prog : Program W) (e : HSM_Event)
    (stop : Option StatePtr) (n : Nat) (p : StatePtr) (idx : Nat) (sys : Sys W)
    (hstop : some p ≠ stop)
    (hret : (prog.fn (prog.state p).handlerFn sys.world sys.me e).retVal = HSM_CONTINUE) :
    dispatchLoop prog e stop false (n + 1) (some p) idx sys =
      dispatchLoop prog e stop false n (prog.state p).superState idx
        (callHandler prog (Callee.state p) (prog.state p).handlerFn e sys).2 := by
  have h1 : (callHandler prog (Callee.state p) (prog.state p).handlerFn e sys).1 =
      HSM_CONTINUE := hret
  simp only [dispatchLoop, hstop, if_false, Bool.false_eq_true]
  generalize callHandler prog (Callee.state p) (prog.state p).handlerFn e sys = res at h1
  obtain ⟨ret, sysA⟩ := res
  simp only at h1
  subst h1
  rfl

theorem demoProg_continue (requests always : List (Option StatePtr)) (s : StatePtr)
    (w : Unit) (m : HSM_Fsm) (ev : HSM_Event) :
    ((demoProg requests always HSM_CONTINUE HSM_CONTINUE).fn
      ((demoProg requests always HSM_CONTINUE HSM_CONTINUE).state s).handlerFn w m ev).retVal =
      HSM_CONTINUE := by
  simp only [demoProg]
  generalize (demoState s).handlerFn = f
  unfold demoFn
  split
  · split
    · rfl
    · split <;> rfl
  · rfl

theorem demoProg_quiet (exitRet userRet : HSM_return_t) (f : FnPtr) (w : Unit) (m : HSM_Fsm)
    (ev : HSM_Event) : ((demoProg [] [] exitRet userRet).fn f w m ev).requests = [] := by
  simp only [demoProg]
  unfold demoFn
  split
  · split
    · rfl
    · split <;> rfl
  · rfl

/-- C17: in a tree `Root` -> `A` -> {`A1`, `A2`} with active state `A1`, where on
the event `e` (not an entry or exit event) the handler of `A1` requests a
transition to `A2`, the handlers of `A` and `Root` request nothing, and every
handler returns `HSM_CONTINUE`: `HSM_Dispatch` returns, the state handlers are
invoked with `e` on `A1`, `A`, `Root`, then with the exit event on `A1`, then
with the entry event on `A2`, and on no other state; `A2` is the active state
afterwards. -/
theorem sibling_transition_scenario {W : Type} (prog : Program W) (fuel : Nat) (sys : Sys W)
    (e : HSM_Event) (Root A A1 A2 : StatePtr)
    (hfuel : HSM_MAX_HIERARCHY_DEPTH < fuel)
    (hRoot : (prog.state Root).superState = none)
    (hA : (prog.state A).superState = some Root)
    (hA1 : (prog.state A1).superState = some A)
    (hA2 : (prog.state A2).superState = some A)
    (hne : A1 ≠ A2)
    (he1 : e.sig ≠ HSM_SIG_ENTRY) (he2 : e.sig ≠ HSM_SIG_EXIT)
    (hact : sys.me.pState__ = some A1)
    (hret : ∀ s w m ev, (prog.fn (prog.state s).handlerFn w m ev).retVal = HSM_CONTINUE)
    (hreq1 : ∀ w m, (prog.fn (prog.state A1).handlerFn w m e).requests = [some A2])
    (hreqA : ∀ w m, (prog.fn (prog.state A).handlerFn w m e).requests = [])
    (hreqR : ∀ w m, (prog.fn (prog.state Root).handlerFn w m e).requests = []) :
    ∃ sys2 tr,
      HSM_Dispatch prog fuel sys e = .ok sys2 ∧ sys2.trace = sys.trace ++ tr ∧
      tr.filterMap TraceItem.callSig =
        [(A1, e.sig), (A, e.sig), (Root, e.sig), (A1, HSM_SIG_EXIT), (A2, HSM_SIG_ENTRY)] ∧
      sys2.me.pState__ = some A2 := by
  -- the two chains
  have hc1 : IsChain prog (some A1) [A1, A, Root] := ⟨rfl, hA1, hA, hRoot⟩
  have hc2 : IsChain prog (some A2) [A2, A, Root] := ⟨rfl, hA2, hA, hRoot⟩
  have hnd1 := isChain_nodup prog _ _ hc1
  have hnd2 := isChain_nodup prog _ _ hc2
  simp only [List.nodup_cons, List.mem_cons, List.mem_singleton, not_or, List.not_mem_nil,
    not_false_eq_true, List.nodup_nil, and_true] at hnd1 hnd2
  obtain ⟨⟨h1A, h1R⟩, hAR⟩ := hnd1
  obtain ⟨⟨h2A, h2R⟩, _⟩ := hnd2
  obtain ⟨f, rfl⟩ : ∃ f, fuel = f + 6 :=
    ⟨fuel - 6, by unfold HSM_MAX_HIERARCHY_DEPTH at hfuel; omega⟩
  -- the prologue
  obtain ⟨obs, htr0, _, hfr0, hobs⟩ := prologue_spec prog sys e
  have hPact : (dispatchPrologue prog sys e).me.pState__ = some A1 := by
    rw [hfr0.1]; exact hact
  have hPev : (dispatchPrologue prog sys e).me.pLatestEvent = some e := hfr0.2.1
  -- the walk
  have hpass : dispatchPass prog (f + 6) sys e none false =
      .ok (callHandler prog (Callee.state Root) (prog.state Root).handlerFn e
        (callHandler prog (Callee.state A) (prog.state A).handlerFn e
          (callHandler prog (Callee.state A1) (prog.state A1).handlerFn e
            (dispatchPrologue prog sys e)).2).2).2 := by
    simp only [dispatchPass, hPact]
    rw [loop_step_continue prog e none (f + 5) A1 0 _ (by simp) (hret _ _ _ _), hA1,
      loop_step_continue prog e none (f + 4) A 0 _ (by simp) (hret _ _ _ _), hA,
      loop_step_continue prog e none (f + 3) Root 0 _ (by simp) (hret _ _ _ _), hRoot]
    simp [dispatchLoop]
  have hs3tr : ∃ m1 m2 m3 r1 r2 r3,
      (callHandler prog (Callee.state Root) (prog.state Root).handlerFn e
        (callHandler prog (Callee.state A) (prog.state A).handlerFn e
          (callHandler prog (Callee.state A1) (prog.state A1).handlerFn e
            (dispatchPrologue prog sys e)).2).2).2.trace =
        (dispatchPrologue prog sys e).trace ++ [TraceItem.call (Callee.state A1) e m1 r1] ++
          [TraceItem.call (Callee.state A) e m2 r2] ++
          [TraceItem.call (Callee.state Root) e m3 r3] :=
    ⟨_, _, _, _, _, _, rfl⟩
  have hs3me : (callHandler prog (Callee.state Root) (prog.state Root).handlerFn e
        (callHandler prog (Callee.state A) (prog.state A).handlerFn e
          (callHandler prog (Callee.state A1) (prog.state A1).handlerFn e
            (dispatchPrologue prog sys e)).2).2).2.me =
      HSM_Transition (dispatchPrologue prog sys e).me (some A2) := by
    simp only [callHandler, hreq1, hreqA, hreqR, List.foldl]
  generalize (callHandler prog (Callee.state Root) (prog.state Root).handlerFn e
        (callHandler prog (Callee.state A) (prog.state A).handlerFn e
          (callHandler prog (Callee.state A1) (prog.state A1).handlerFn e
            (dispatchPrologue prog sys e)).2).2).2 = sys1 at hpass hs3tr hs3me
  obtain ⟨m1, m2, m3, r1, r2, r3, htr1⟩ := hs3tr
  have hpend : sys1.me.pTransitionTarget = some A2 := by
    rw [hs3me]
    simp [HSM_Transition, hPev, he1, he2]
  have hact1 : sys1.me.pState__ = some A1 := by
    rw [hs3me, (HSM_Transition_fields _ _).1]
    exact hPact
  -- the transition
  obtain ⟨L, sys2, obsX, exits, obsN, entries, hL, hrun, htr2, hme2, hoX, hiX, hwX, hoN, hiN,
      hsN⟩ :=
    transition_run prog (f + 6) (f + 4)
      { sys1 with me := { sys1.me with pTransitionTarget := none } } A2 [A1, A, Root]
      [A2, A, Root] (by simp only; rw [hact1]; exact hc1) (by simp) hc2 (by simp)
      (by simp [HSM_MAX_HIERARCHY_DEPTH]) rfl
  simp only at hL hrun htr2 hme2 hoX hiX hwX
  rw [hact1] at hL hoX hiX hwX
  have hLA : L = some A := by
    rw [lcs_spec prog (f + 6) _ _ [A1, A, Root] [A2, A, Root] hc1 (by simp) hc2 (by simp)] at hL
    have : [A1, A, Root].find? (fun p => decide (p ∈ [A2, A, Root])) = some A := by
      simp [List.find?_cons, hne, h1A, h1R]
    rw [this] at hL
    simpa using hL.symm
  subst hLA
  have hexits : exits.filterMap TraceItem.stateOf = [A1] := by
    rw [stateOf_eq_stepOf,
      walk_all_continue prog (some A) _ _ [A1, A, Root] hc1 hwX
        (steps_continue prog exitEvt _ exits hiX (fun s w m => hret s w m exitEvt))]
    simp [below, h1A]
  have hentries : entries.filterMap TraceItem.stateOf = [A2] := by
    rw [hsN]
    simp [below, h2A]
  refine ⟨sys2, obs ++ [TraceItem.call (Callee.state A1) e m1 r1,
    TraceItem.call (Callee.state A) e m2 r2, TraceItem.call (Callee.state Root) e m3 r3] ++
    (obsX ++ exits) ++ [TraceItem.setState A2] ++ (obsN ++ entries), ?_, ?_, ?_, ?_⟩
  · rw [HSM_Dispatch_unfold prog (f + 4) sys e, hpass]
    simp only [hpend]
    exact hrun
  · rw [htr2, htr1, htr0]
    simp
  · simp only [List.filterMap_append, callSig_observer _ _ _ hobs,
      callSig_observer _ _ _ hoX, callSig_observer _ _ _ hoN,
      callSig_stateCalls prog _ _ _ hiX, callSig_stateCalls prog _ _ _ hiN, hexits, hentries]
    simp [TraceItem.callSig, exitEvt, entryEvt]
  · rw [hme2]


/-- C17, witness: the concrete tree, with `Root` = `0`, `A` = `1`, `A1` = `2` and
`A2` = `3`. -/
theorem sibling_transition_scenario_witness :
    (machineOf (HSM_Dispatch (demoProg [some 3] [] HSM_CONTINUE HSM_CONTINUE) 6 demoSys userEvt)).map (fun m => m.pState__) = some (some 3) ∧
      ∃ sys2 tr,
        HSM_Dispatch (demoProg [some 3] [] HSM_CONTINUE HSM_CONTINUE) 6 demoSys userEvt = .ok sys2 ∧ sys2.trace = demoSys.trace ++ tr ∧
        tr.filterMap TraceItem.callSig =
          [(2, userEvt.sig), (1, userEvt.sig), (0, userEvt.sig), (2, HSM_SIG_EXIT),
            (3, HSM_SIG_ENTRY)] ∧
        sys2.me.pState__ = some 3 :=
  ⟨rfl, sibling_transition_scenario (demoProg [some 3] [] HSM_CONTINUE HSM_CONTINUE) 6 demoSys userEvt 0 1 2 3 (by decide) rfl rfl rfl rfl
    (by decide) (by decide) (by decide) rfl (demoProg_continue _ _)
    (fun _ _ => rfl) (fun _ _ => rfl) (fun _ _ => rfl)⟩

/-- C18: when the ancestor chain of the initial state `X` of a freshly constructed
machine is within the depth bound, the handlers return `HSM_CONTINUE` for the init
event and no handler requests a transition on it, `HSM_FsmInit` returns, the state
handlers it invokes are that of `X` with the init signal and then those of the
chain of `X`, from the root down to `X`, with the entry signal, and `X` is still
the active state. -/
theorem init_trace {W : Type} (prog : Program W) (fuel : Nat) (sys : Sys W) (X : StatePtr)
    (fnGenericEvtHandler : Option FnPtr) (c : List StatePtr)
    (hc : superChain prog HSM_MAX_HIERARCHY_DEPTH (some X) = some c)
    (hfuel : HSM_MAX_HIERARCHY_DEPTH < fuel)
    (hfresh : sys.me = HSM_FsmCtor (some X) fnGenericEvtHandler)
    (hcont : ∀ s w m, (prog.fn (prog.state s).handlerFn w m initEvt).retVal = HSM_CONTINUE)
    (hnoreq : ∀ f w m, (prog.fn f w m initEvt).requests = []) :
    ∃ sys2 tr,
      HSM_FsmInit prog fuel sys = .ok sys2 ∧ sys2.trace = sys.trace ++ tr ∧
      tr.filterMap TraceItem.callSig =
        (X, HSM_SIG_INIT) :: c.reverse.map (fun s => (s, HSM_SIG_ENTRY)) ∧
      sys2.me.pState__ = some X := by
  have hX : sys.me.pState__ = some X := by rw [hfresh]; rfl
  obtain ⟨hch, hl⟩ := isChain_of_superChain prog _ _ _ hc
  have hcS : IsChain prog sys.me.pState__ c := by rw [hX]; exact hch
  obtain ⟨sys1, _, _, hp, _⟩ :=
    pass_asc prog fuel initEvt (prog.state X).superState sys c hcS (by omega)
  obtain ⟨reqs, _, hme1, hz⟩ := pass_requests prog fuel sys sys1 initEvt _ hp
  have hquiet : sys1.me.pTransitionTarget = none := by
    rw [hme1, hz hnoreq, hfresh]
    rfl
  obtain ⟨sys2, obs, items, obsN, entries, hrun, htr, htr2, hobs, hit, hw, hoN, hiN, hsN, _,
      hact⟩ := init_run prog fuel sys sys1 X c hfuel hX hch hl hp hquiet
  have hitems : items.filterMap TraceItem.stateOf = [X] := by
    rw [stateOf_eq_stepOf,
      walk_all_continue prog _ _ _ c hch hw (steps_continue prog initEvt _ items hit hcont)]
    exact below_super prog X c hch
  refine ⟨sys2, obs ++ items ++ obsN ++ entries, hrun, ?_, ?_, hact⟩
  · rw [htr2, htr]; simp
  · simp only [List.filterMap_append, callSig_observer _ _ _ hobs, callSig_observer _ _ _ hoN,
      callSig_stateCalls prog _ _ _ hit, callSig_stateCalls prog _ _ _ hiN, hitems, hsN]
    simp [initEvt, entryEvt]

/-- C18, witness: the two-level tree of the states `0` and `4` of the concrete tree,
with initial state `4`. -/
theorem init_trace_witness :
    ∃ sys2 tr,
      HSM_FsmInit (demoProg [] [] HSM_CONTINUE HSM_CONTINUE) 6 (sysOf (HSM_FsmCtor (some 4) none)) = .ok sys2 ∧
      sys2.trace = (sysOf (HSM_FsmCtor (some 4) none)).trace ++ tr ∧
      tr.filterMap TraceItem.callSig =
        (4, HSM_SIG_INIT) :: [4, 0].reverse.map (fun s => (s, HSM_SIG_ENTRY)) ∧
      sys2.me.pState__ = some 4 :=
  init_trace (demoProg [] [] HSM_CONTINUE HSM_CONTINUE) 6 (sysOf (HSM_FsmCtor (some 4) none)) 4 none [4, 0] rfl (by decide) rfl
    (fun s w m => demoProg_continue _ _ s w m initEvt)
    (fun f w m => demoProg_quiet _ _ f w m initEvt)

/-- C19: on a well-formed tree every descending pass (`HSM_FsmInit` and
`__Transition` run no other) returns without fault, whatever `stateList` held
before.  Its first loop stores the states below the boundary at the indices `0`,
..., `k - 1`, with `k` at most `HSM_MAX_HIERARCHY_DEPTH`; its second loop loads the
indices `k - 1`, ..., `0`, and the handlers it invokes are those of the states just
stored, in reverse order.  (A store or load outside the array is the fault
`outOfBounds`, a load of a null slot the fault `nullDeref`.) -/
theorem descending_pass_in_bounds {W : Type} (prog : Program W) (fuel : Nat) (sys : Sys W)
    (e : HSM_Event) (stop : Option StatePtr)
    (hwf : WellFormed prog) (hfuel : HSM_MAX_HIERARCHY_DEPTH < fuel) :
    ∃ c buf sys1 tr,
      superChain prog HSM_MAX_HIERARCHY_DEPTH sys.me.pState__ = some c ∧
      (below stop c).length ≤ HSM_MAX_HIERARCHY_DEPTH ∧
      dispatchLoop prog e stop true fuel (dispatchPrologue prog sys e).me.pState__ 0
          (dispatchPrologue prog sys e) =
        .ok ({ dispatchPrologue prog sys e with stateList := buf }, (below stop c).length) ∧
      (∀ i s, (below stop c)[i]? = some s → buf i = some s) ∧
      enterLoop prog e (below stop c).length
          { dispatchPrologue prog sys e with stateList := buf } = .ok sys1 ∧
      dispatchPass prog fuel sys e stop true = .ok sys1 ∧
      sys1.trace = sys.trace ++ tr ∧
      tr.filterMap TraceItem.stateOf = (below stop c).reverse := by
  obtain ⟨c, hc, hl, hsc⟩ := wellFormed_chain prog hwf sys.me.pState__
  obtain ⟨obs, htr0, _, hfr0, hobs⟩ := prologue_spec prog sys e
  have hact : (dispatchPrologue prog sys e).me.pState__ = sys.me.pState__ := hfr0.1
  have hc2 : IsChain prog (dispatchPrologue prog sys e).me.pState__ c := by rw [hact]; exact hc
  obtain ⟨buf, hrun, hget, _⟩ :=
    desc_collect prog e stop fuel _ c 0 (dispatchPrologue prog sys e) hc2 (by omega) (by omega)
  have hfit : (below stop c).length ≤ HSM_MAX_HIERARCHY_DEPTH :=
    le_trans (below_length_le stop c) hl
  have hget0 : ∀ i s, (below stop c)[i]? = some s → buf i = some s := by
    intro i s hi
    have := hget i s hi
    simpa using this
  obtain ⟨sys1, items, hrun1, htr1, _, _, _, hst1⟩ :=
    enter_run prog e (below stop c) { dispatchPrologue prog sys e with stateList := buf }
      hget0 hfit
  have hrun0 : dispatchLoop prog e stop true fuel (dispatchPrologue prog sys e).me.pState__ 0
      (dispatchPrologue prog sys e) =
      .ok ({ dispatchPrologue prog sys e with stateList := buf }, (below stop c).length) := by
    rw [hrun]
    simp
  refine ⟨c, buf, sys1, obs ++ items, hsc, hfit, hrun0, hget0, hrun1, ?_, ?_, ?_⟩
  · simp only [dispatchPass, hrun0, if_true]
    exact hrun1
  · rw [htr1]
    simp only
    rw [htr0, List.append_assoc]
  · rw [List.filterMap_append, hst1]
    have : obs.filterMap TraceItem.stateOf = [] := by
      rcases hobs with h | ⟨m, r, h, _⟩ <;> simp [h, TraceItem.stateOf]
    rw [this]
    rfl

/-- C19, witness: a descending pass for the entry event over the whole chain of
state `2` of the concrete tree, from an array with stale contents. -/
theorem descending_pass_in_bounds_witness :
    (traceOf (dispatchPass (demoProg [] [] HSM_CONTINUE HSM_CONTINUE) 6 demoSysStale entryEvt none true)).map
        (List.filterMap TraceItem.stateOf) = some [0, 1, 2] ∧
      ∃ c buf sys1 tr,
        superChain (demoProg [] [] HSM_CONTINUE HSM_CONTINUE) HSM_MAX_HIERARCHY_DEPTH demoSysStale.me.pState__ = some c ∧
        (below none c).length ≤ HSM_MAX_HIERARCHY_DEPTH ∧
        dispatchLoop (demoProg [] [] HSM_CONTINUE HSM_CONTINUE) entryEvt none true 6 (dispatchPrologue (demoProg [] [] HSM_CONTINUE HSM_CONTINUE) demoSysStale entryEvt).me.pState__
            0 (dispatchPrologue (demoProg [] [] HSM_CONTINUE HSM_CONTINUE) demoSysStale entryEvt) =
          .ok ({ dispatchPrologue (demoProg [] [] HSM_CONTINUE HSM_CONTINUE) demoSysStale entryEvt with stateList := buf },
            (below none c).length) ∧
        (∀ i s, (below none c)[i]? = some s → buf i = some s) ∧
        enterLoop (demoProg [] [] HSM_CONTINUE HSM_CONTINUE) entryEvt (below none c).length
            { dispatchPrologue (demoProg [] [] HSM_CONTINUE HSM_CONTINUE) demoSysStale entryEvt with stateList := buf } = .ok sys1 ∧
        dispatchPass (demoProg [] [] HSM_CONTINUE HSM_CONTINUE) 6 demoSysStale entryEvt none true = .ok sys1 ∧
        sys1.trace = demoSysStale.trace ++ tr ∧
        tr.filterMap TraceItem.stateOf = (below none c).reverse :=
  ⟨rfl, descending_pass_in_bounds (demoProg [] [] HSM_CONTINUE HSM_CONTINUE) 6 demoSysStale entryEvt none (demoProg_wellFormed _ _ _ _)
    (by decide)⟩

/-- C20: on a well-formed tree, an external dispatch of an event that is neither an
entry nor an exit event returns.  If the last of the requests made during its
bubbling pass (by the generic handler or the state handlers, whatever they return)
names the state `T`, then `T` is the active state when the dispatch returns; if no
request is made, and none was pending, the active state is unchanged.  In general
the active state becomes the target pending after the last request, if that is a
state. -/
theorem last_request_wins {W : Type} (prog : Program W) (fuel : Nat) (sys : Sys W)
    (e : HSM_Event) (hwf : WellFormed prog) (hfuel : HSM_MAX_HIERARCHY_DEPTH < fuel)
    (he1 : e.sig ≠ HSM_SIG_ENTRY) (he2 : e.sig ≠ HSM_SIG_EXIT) :
    ∃ sys1 sys2 reqs,
      dispatchPass prog fuel sys e none false = .ok sys1 ∧
      HSM_Dispatch prog fuel sys e = .ok sys2 ∧
      sys1.requested = sys.requested ++ reqs ∧
      (∀ T, reqs.getLast? = some (some T) → sys2.me.pState__ = some T) ∧
      (reqs = [] → sys.me.pTransitionTarget = none → sys2.me.pState__ = sys.me.pState__) ∧
      sys2.me.pState__ =
        (reqs.getLast?.getD sys.me.pTransitionTarget).orElse (fun _ => sys.me.pState__) := by
  obtain ⟨c, hc, hl, _⟩ := wellFormed_chain prog hwf sys.me.pState__
  obtain ⟨sys1, _, _, hp, _, _, hfr, _⟩ := pass_asc prog fuel e none sys c hc (by omega)
  obtain ⟨reqs, hq, hme, _⟩ := pass_requests prog fuel sys sys1 e none hp
  obtain ⟨sys2, _, hrun, _⟩ := dispatch_returns prog fuel sys sys1 e hwf hfuel hp
  have hpend : sys1.me.pTransitionTarget = reqs.getLast?.getD sys.me.pTransitionTarget := by
    rw [hme]
    exact requests_live reqs { sys.me with pLatestEvent := some e } e rfl he1 he2
  have hchar : sys2.me.pState__ =
      (reqs.getLast?.getD sys.me.pTransitionTarget).orElse (fun _ => sys.me.pState__) := by
    rw [← hpend]
    cases hT : sys1.me.pTransitionTarget with
    | none =>
      obtain ⟨f, rfl⟩ : ∃ f, fuel = f + 2 :=
        ⟨fuel - 2, by unfold HSM_MAX_HIERARCHY_DEPTH at hfuel; omega⟩
      rw [HSM_Dispatch_unfold, hp] at hrun
      simp only [hT] at hrun
      have : sys1 = sys2 := by simpa using hrun
      rw [← this]
      exact hfr.1
    | some T =>
      obtain ⟨_, sys3, _, _, _, _, _, _, _, _, _, hrun3, _, _, _, _, _, _, hme3, _⟩ :=
        dispatch_transition prog fuel sys sys1 e T hwf hfuel hp hT
      rw [hrun] at hrun3
      have : sys2 = sys3 := by simpa using hrun3
      rw [this, hme3]
      rfl
  refine ⟨sys1, sys2, reqs, hp, hrun, hq, ?_, ?_, hchar⟩
  · intro T hlast
    rw [hchar, hlast]
    rfl
  · intro hnil hnone
    rw [hchar, hnil, hnone]
    rfl

/-- C20, witness: the concrete tree with active state `2`, a generic handler and a
handler of `2` that both request first `4` and then `3` on the application event;
the handler of `2` returns `HSM_SUPPRESS_SUPERSTATES` there.  State `3` becomes
the active state. -/
theorem last_request_wins_witness :
    (machineOf (HSM_Dispatch (demoProg [some 4, some 3] [] HSM_CONTINUE HSM_SUPPRESS_SUPERSTATES) 6 demoSysObserved userEvt)).map (fun m => m.pState__) =
        some (some 3) ∧
      (passOf (demoProg [some 4, some 3] [] HSM_CONTINUE HSM_SUPPRESS_SUPERSTATES) 6 demoSysObserved userEvt).requested = [some 4, some 3, some 4, some 3] ∧
      ∃ sys1 sys2 reqs,
        dispatchPass (demoProg [some 4, some 3] [] HSM_CONTINUE HSM_SUPPRESS_SUPERSTATES) 6 demoSysObserved userEvt none false = .ok sys1 ∧
        HSM_Dispatch (demoProg [some 4, some 3] [] HSM_CONTINUE HSM_SUPPRESS_SUPERSTATES) 6 demoSysObserved userEvt = .ok sys2 ∧
        sys1.requested = demoSysObserved.requested ++ reqs ∧
        (∀ T, reqs.getLast? = some (some T) → sys2.me.pState__ = some T) ∧
        (reqs = [] → demoSysObserved.me.pTransitionTarget = none →
          sys2.me.pState__ = demoSysObserved.me.pState__) ∧
        sys2.me.pState__ =
          (reqs.getLast?.getD demoSysObserved.me.pTransitionTarget).orElse
            (fun _ => demoSysObserved.me.pState__) :=
  ⟨rfl, rfl, last_request_wins (demoProg [some 4, some 3] [] HSM_CONTINUE HSM_SUPPRESS_SUPERSTATES) 6 demoSysObserved userEvt (demoProg_wellFormed _ _ _ _)
    (by decide) (by decide) (by decide)⟩

end HSM
